import Mathlib

/-!
Verification of the Pootle virtual-folder subsystem
(`pootle/apps/virtualfolder/models.py` and the `add_vfolders` management
command).  The Python code is shallowly embedded: strings are Lean
`String`s, the database of virtual folders is a list of records, the
store table is a list of pootle paths, and the bulk-import command is a
fold over the parsed item list.
-/

namespace Pootle

/-! ### Character / string utilities mirroring the Python string methods -/



/-- Python `s.count(c)` for a single character. -/
def countCh (c : Char) (s : String) : Nat := s.data.count c

/-- Split a character list on a separator character, Python
`str.split(sep)` semantics: always returns at least one (possibly
empty) group. -/
def splitCh (c : Char) : List Char → List (List Char)
| [] => [[]]
| a :: as =>
  if a = c then [] :: splitCh c as
  else
    match splitCh c as with
    | [] => [[a]]
    | g :: gs => (a :: g) :: gs

/-- Join character-list groups with a separator character, Python
`sep.join(...)` semantics. -/
def joinCh (c : Char) : List (List Char) → List Char
| [] => []
| [g] => g
| g :: g' :: gs => g ++ c :: joinCh c (g' :: gs)

/-- Python `s.split("/")`. -/
def splitSlash (s : String) : List String :=
  (splitCh '/' s.data).map String.mk

/-- Python `"/".join(l)`. -/
def joinSlash (l : List String) : String :=
  String.mk (joinCh '/' (l.map String.data))

/-- Python `s.strip("/")`: remove all leading and trailing slashes. -/
def stripSlashes (s : String) : String :=
  String.mk (((s.data.dropWhile (· = '/')).reverse.dropWhile (· = '/')).reverse)

/-- Python `s.startswith(pre)`. -/
def strStartsWith (s pre : String) : Bool :=
  pre.data.isPrefixOf s.data

/-- Python `",".join(l)`. -/
def joinComma : List String → String
| [] => ""
| [x] => x
| x :: y :: t => x ++ "," ++ joinComma (y :: t)

/-- Python `s.split(",")`. -/
def splitComma (s : String) : List String :=
  (splitCh ',' s.data).map String.mk

/-- One left-to-right, non-overlapping replacement pass over a character
list: Python `str.replace(pat, repl)` semantics (all occurrences). -/
def replaceChars (pat repl : List Char) : List Char → List Char
| [] => []
| c :: cs =>
  if h : pat ≠ [] ∧ pat.isPrefixOf (c :: cs) then
    repl ++ replaceChars pat repl ((c :: cs).drop pat.length)
  else
    c :: replaceChars pat repl cs
termination_by l => l.length
decreasing_by
  · simp only [List.length_drop, List.length_cons]
    have hp : 1 ≤ pat.length := by
      cases hpat : pat with
      | nil => exact absurd hpat h.1
      | cons a as => simp
    omega
  · simp

/-- Python `s.replace(pat, repl)`. -/
def strReplace (s pat repl : String) : String :=
  String.mk (replaceChars pat.data repl.data s.data)

/-- Does `pat` occur as a contiguous sublist? -/
def occursIn (pat : List Char) : List Char → Bool
| [] => pat.isEmpty
| c :: cs => pat.isPrefixOf (c :: cs) || occursIn pat cs

/-- Python `pat in s` (substring containment). -/
def containsSub (s pat : String) : Bool :=
  occursIn pat.data s.data

/-- Python `s.lower()` as character-wise case folding. -/
def strToLower (s : String) : String :=
  String.mk (s.data.map Char.toLower)

/-! ### The virtual folder record and the store table

`VirtualFolder` carries exactly the fields of the Django model that the
matching and import logic reads (`description` stands for the markup
field's raw text; the unit many-to-many relation is outside the claims'
scope).  The set of existing stores is a list of their pootle paths. -/

structure VirtualFolder where
  name : String
  location : String
  filter_rules : String
  priority : Int
  is_browsable : Bool
  description : String
deriving DecidableEq

/-- `VirtualFolder.get_adjusted_location`: count the slashes of the
stored location; fail when the queried path has fewer; then run the
best-effort segment validation (`try`/`except IndexError: pass`: the
first-segment comparison never index-errors because `str.split` always
returns at least one part, while either second-segment access can, in
which case the remaining validation is skipped); finally truncate the
queried path to `count` slash-separated pieces. -/
def get_adjusted_location (vf : VirtualFolder) (p : String) :
    Except String String :=
  let count := countCh '/' vf.location
  let msg := vf.name ++ ": " ++ vf.location ++ " is not applicable in " ++ p
  if countCh '/' p < count then .error msg
  else
    let pootle_path_parts := splitSlash (stripSlashes p)
    let location_parts := splitSlash (stripSlashes vf.location)
    let l0 := location_parts.headD ""
    let p0 := pootle_path_parts.headD ""
    if l0 ≠ p0 ∧ l0 ≠ "{LANG}" then .error msg
    else
      match location_parts.get? 1 with
      | none => .ok (joinSlash ((splitSlash p).take count))
      | some l1 =>
        match pootle_path_parts.get? 1 with
        | none => .ok (joinSlash ((splitSlash p).take count))
        | some p1 =>
          if l1 ≠ p1 ∧ l1 ≠ "{PROJ}" then .error msg
          else .ok (joinSlash ((splitSlash p).take count))

/-- `VirtualFolder.get_all_pootle_paths`: expand the `{LANG}` / `{PROJ}`
placeholders of the location over the known language and project codes
(both placeholders: nested loops, languages outside; one placeholder:
a single comprehension; none: the literal location). -/
def get_all_pootle_paths (langs projs : List String) (vf : VirtualFolder) :
    List String :=
  if containsSub vf.location "{LANG}" ∧ containsSub vf.location "{PROJ}" then
    langs.foldl
      (fun acc lang =>
        let temp := strReplace vf.location "{LANG}" lang
        projs.foldl (fun acc2 proj => acc2 ++ [strReplace temp "{PROJ}" proj]) acc)
      []
  else if containsSub vf.location "{LANG}" then
    langs.map (fun lang => strReplace vf.location "{LANG}" lang)
  else if containsSub vf.location "{PROJ}" then
    projs.map (fun proj => strReplace vf.location "{PROJ}" proj)
  else [vf.location]

/-! ### The path pattern builder (`pattern_for_path`)

The Python function assembles a regular-expression *string*.  We embed
that string builder verbatim (`pattern_for_sublist`, `pattern_for_path`)
and, alongside it, the same assembly at the level of a small
star-free regex syntax tree (`RE`).  `RE.render` prints a tree in
standard regex notation — escaped characters print as backslash pairs,
groups as parentheses, alternation with `|`, an optional tree with a
trailing `?` — and the builders are proved to satisfy
`pattern_for_path p = "^" ++ (regexForItems (pathItems p)).render ++ "$"`,
so `RE.lang`, the (finite) language of a star-free tree, gives the
semantics of the generated pattern: `re.match` of the `^...$`-anchored
pattern against a location succeeds exactly when the location belongs
to the language of the pattern's body.  (In the generated patterns the
unescaped `{PROJ}` braces are literal characters for Python's `re` as
well, since `{PROJ}` is not a valid quantifier.) -/

inductive RE
| eps
| lit (c : Char)
| esc (c : Char)
| any
| grp (r : RE)
| cat (a b : RE)
| alt (a b : RE)
| opt (r : RE)
deriving DecidableEq

/-- Print a tree in regex notation (`any` is the dot metacharacter). -/
def RE.render : RE → String
| .eps => ""
| .lit c => String.singleton c
| .esc c => "\\" ++ String.singleton c
| .any => "."
| .grp r => "(" ++ r.render ++ ")"
| .cat a b => a.render ++ b.render
| .alt a b => a.render ++ "|" ++ b.render
| .opt r => r.render ++ "?"

/-- Does the tree avoid the `any` metacharacter?  (Only then is the
finite list `RE.lang` below the tree's whole language.) -/
def RE.anyFree : RE → Bool
| .eps => true
| .lit _ => true
| .esc _ => true
| .any => false
| .grp r => r.anyFree
| .cat a b => a.anyFree && b.anyFree
| .alt a b => a.anyFree && b.anyFree
| .opt r => r.anyFree

/-- The finite-language reading of an `any`-free tree, as the list of
matching strings (alternatives in syntactic order, possibly with
repetitions; `any`, whose language is not finite, contributes nothing
and is excluded by `RE.anyFree` wherever this list is used). -/
def RE.lang : RE → List String
| .eps => [""]
| .lit c => [String.singleton c]
| .esc c => [String.singleton c]
| .any => []
| .grp r => r.lang
| .cat a b => a.lang.flatMap (fun x => b.lang.map (fun y => x ++ y))
| .alt a b => a.lang ++ b.lang
| .opt r => "" :: r.lang

/-- Backtracking matcher in continuation style: `mrec r s k` asks
whether some prefix of `s` matches `r` with the rest accepted by `k`
(the standard semantics of the regex connectives, `any` matching one
arbitrary character). -/
def mrec : RE → List Char → (List Char → Bool) → Bool
| .eps, s, k => k s
| .lit c, s, k =>
  match s with
  | [] => false
  | d :: t => if c = d then k t else false
| .esc c, s, k =>
  match s with
  | [] => false
  | d :: t => if c = d then k t else false
| .any, s, k =>
  match s with
  | [] => false
  | _ :: t => k t
| .grp r, s, k => mrec r s k
| .cat a b, s, k => mrec a s (fun t => mrec b t k)
| .alt a b, s, k => mrec a s k || mrec b s k
| .opt r, s, k => k s || mrec r s k

/-- Whole-string matching: does `s` belong to the language of `r`?
This is `re.match` of the `^...$`-anchored rendering of `r`. -/
def RE.rmatch (r : RE) (s : String) : Bool :=
  mrec r s.data (fun t => t.isEmpty)

/-- A chain of single-character literals. -/
def litChars : List Char → RE
| [] => RE.eps
| c :: cs => RE.cat (RE.lit c) (litChars cs)

/-- The literal regex matching exactly the string `s`. -/
def litRE (s : String) : RE := litChars s.data

/-- The characters Python's `re` treats specially.  A path segment
avoiding all of them is interpolated into the pattern with its literal
meaning. -/
def metaChars : List Char :=
  ['.', '^', '$', '*', '+', '?', '(', ')', '[', ']', '\x7b', '\x7d',
   '\\', '|']

/-- A character with no special regex meaning. -/
def plainChar (c : Char) : Bool := !(metaChars.contains c)

/-- A path segment free of regex metacharacters. -/
def plainSeg (s : String) : Bool := s.data.all plainChar

/-- A path segment as interpolated, unescaped, into the pattern: a dot
becomes the any-character metacharacter, the remaining characters are
chained as literals.  (This captures Python's reading of the segment
when its other characters carry no special regex meaning — which the
metacharacter-free hypotheses of the theorems below, and the dot of the
counterexample, stay within.) -/
def segChars : List Char → RE
| [] => RE.eps
| c :: cs => RE.cat (if c = '.' then RE.any else RE.lit c) (segChars cs)

/-- The interpolated-segment regex for a segment string. -/
def segRE (s : String) : RE := segChars s.data

/-- The `\x7bLANG\x7d` token as emitted (braces escaped). -/
def langTok : RE := RE.cat (RE.esc '\x7b') (RE.cat (litRE "LANG") (RE.esc '\x7d'))

/-- The `\x7bPROJ\x7d` token as emitted (braces left unescaped). -/
def projTok : RE := RE.cat (RE.lit '\x7b') (RE.cat (litRE "PROJ") (RE.lit '\x7d'))

/-- The first-segment alternatives `seg|\x7bLANG\x7d|projects` (the
segment interpolated unescaped). -/
def threeAltRE (i0 : String) : RE :=
  RE.alt (segRE i0) (RE.alt langTok (litRE "projects"))

/-- `pattern_for_sublist` as a string, verbatim from the source. -/
def pattern_for_sublist : List String → String
| [] => ""
| [x] => "(/" ++ x ++ ")?"
| x :: y :: t => "(/" ++ x ++ pattern_for_sublist (y :: t) ++ ")?"

/-- `pattern_for_sublist` at the tree level: right-nested optional
groups. -/
def sublistRE : List String → RE
| [] => RE.eps
| [x] => RE.opt (RE.grp (RE.cat (RE.lit '/') (segRE x)))
| x :: y :: t =>
  RE.opt (RE.grp (RE.cat (RE.lit '/') (RE.cat (segRE x) (sublistRE (y :: t)))))

/-- `pootle_path.strip("/").split("/")`. -/
def pathItems (p : String) : List String :=
  splitSlash (stripSlashes p)

/-- The pattern string assembled from the path's segment list (the
`str_list` pieces of the source, concatenated; the `[]` case cannot
arise because `str.split` always returns at least one part). -/
def patternForItems : List String → String
| [] => ""
| [i0] => "^/((" ++ i0 ++ "|\\\x7bLANG\\\x7d|projects)" ++ ")/$"
| i0 :: i1 :: rest =>
  "^/((" ++ i0 ++ "|\\\x7bLANG\\\x7d|projects)" ++
    ("|((" ++ i0 ++ "|\\\x7bLANG\\\x7d|projects)(/(" ++ i1 ++ "|\x7bPROJ\x7d)") ++
    (if rest = [] then "" else pattern_for_sublist rest) ++ ")?)" ++ ")/$"

/-- `pattern_for_path`, the regex string returned by the source. -/
def pattern_for_path (pootle_path : String) : String :=
  patternForItems (pathItems pootle_path)

/-- The same pattern as a tree (everything between the `^/` and `/$`
anchors of `patternForItems`, with the surrounding slashes). -/
def regexForItems : List String → RE
| [] => RE.eps
| [i0] =>
  RE.cat (RE.lit '/') (RE.cat (RE.grp (RE.grp (threeAltRE i0))) (RE.lit '/'))
| i0 :: i1 :: rest =>
  RE.cat (RE.lit '/')
    (RE.cat
      (RE.grp
        (RE.alt (RE.grp (threeAltRE i0))
          (RE.grp
            (RE.cat (RE.grp (threeAltRE i0))
              (RE.opt
                (RE.grp
                  (RE.cat (RE.lit '/')
                    (RE.cat (RE.grp (RE.alt (segRE i1) projTok))
                      (if rest = [] then RE.eps else sublistRE rest)))))))))
      (RE.lit '/'))

/-- The tree for a full pootle path. -/
def regex_for_path (pootle_path : String) : RE :=
  regexForItems (pathItems pootle_path)

/-- Does the anchored pattern built for `pootle_path` match `loc`
(Python `re.compile(pattern_for_path(path)).match(loc)` succeeding)?
The `^...$` anchors make `re.match` a whole-string match, so this is
`RE.rmatch` of the pattern's body. -/
def locationMatches (pootle_path loc : String) : Bool :=
  (regex_for_path pootle_path).rmatch loc

/-- `VirtualFolder.get_applicable_for`: the browsable folders whose
location the pattern matches, in database order. -/
def get_applicable_for (db : List VirtualFolder) (pootle_path : String) :
    List VirtualFolder :=
  (db.filter (fun vf => vf.is_browsable)).filter
    (fun vf => locationMatches pootle_path vf.location)

/-- The per-folder filter-rule scan of `get_matching_for`: does some
rule filename, appended to the adjusted location, give a store path
that extends the queried path and exists? (`any` stops at the first
hit, like the source's `break`.) -/
def folderRuleHits (stores : List String) (location p : String)
    (vf : VirtualFolder) : Bool :=
  (splitComma vf.filter_rules).any (fun filename =>
    let vf_file := location ++ "/" ++ filename
    strStartsWith vf_file p && stores.contains vf_file)

/-- The loop body of `get_matching_for` over the applicable folders;
an applicability exception from `get_adjusted_location` propagates. -/
def matchingLoop (stores : List String) (p : String) :
    List VirtualFolder → Except String (List VirtualFolder)
| [] => .ok []
| vf :: rest =>
  match get_adjusted_location vf p with
  | .error e => .error e
  | .ok location =>
    match matchingLoop stores p rest with
    | .error e => .error e
    | .ok tail =>
      if folderRuleHits stores location p vf then .ok (vf :: tail)
      else .ok tail

/-- `VirtualFolder.get_matching_for`: restrict the applicable folders
to those with a filter rule that actually hits an existing store. -/
def get_matching_for (db : List VirtualFolder) (stores : List String)
    (pootle_path : String) : Except String (List VirtualFolder) :=
  matchingLoop stores pootle_path (get_applicable_for db pootle_path)

/-! ### The bulk-import command (`add_vfolders.py`)

A parsed JSON entry: `name` and `location` are required keys, the rest
are optional (`files` is the list later comma-joined into
`filter_rules`). -/

structure VfItem where
  name : String
  location : String
  files : Option (List String)
  priority : Option Int
  is_browsable : Option Bool
  description : Option String
deriving DecidableEq

/-- `vfolder_item['filter_rules']` as computed by the command: the
comma-join of `files` when that key is present, else the empty string. -/
def effectiveRules (it : VfItem) : String :=
  match it.files with
  | some fs => joinComma fs
  | none => ""

/-- The `(name, location)` lookup predicate of
`VirtualFolder.objects.get(name=..., location=...)`. -/
def vfKeyMatches (n l : String) (vf : VirtualFolder) : Bool :=
  vf.name = n ∧ vf.location = l

/-- Database lookup by the unique-together `(name, location)` key. -/
def dbFind (db : List VirtualFolder) (n l : String) : Option VirtualFolder :=
  db.find? (vfKeyMatches n l)

/-- Persist an updated record: replace the rows carrying the key (under
the model's unique-together constraint there is at most one). -/
def dbReplace (db : List VirtualFolder) (n l : String) (vf' : VirtualFolder) :
    List VirtualFolder :=
  db.map (fun f => if vfKeyMatches n l f then vf' else f)

/-- The running state of the command: the database plus the added /
updated counters. -/
structure ImportState where
  db : List VirtualFolder
  added : Nat
  updated : Nat
deriving DecidableEq

/-- The update block of the command: compare `filter_rules` (always),
then `priority`, `is_browsable`, `description` (each only when the key
is present in the item), overwriting a field exactly when it differs;
the boolean records whether anything changed. -/
def applyUpdates (vf : VirtualFolder) (rules : String) (it : VfItem) :
    VirtualFolder × Bool :=
  let s1 : VirtualFolder × Bool :=
    if vf.filter_rules ≠ rules then ({ vf with filter_rules := rules }, true)
    else (vf, false)
  let s2 : VirtualFolder × Bool :=
    match it.priority with
    | some p =>
      if s1.1.priority ≠ p then ({ s1.1 with priority := p }, true) else s1
    | none => s1
  let s3 : VirtualFolder × Bool :=
    match it.is_browsable with
    | some b =>
      if s2.1.is_browsable ≠ b then ({ s2.1 with is_browsable := b }, true)
      else s2
    | none => s2
  match it.description with
  | some d =>
    if s3.1.description ≠ d then ({ s3.1 with description := d }, true) else s3
  | none => s3

/-- One iteration of the command's loop over the parsed entries: the
name is lowercased, `filter_rules` computed, then the folder is created
(with the model's field defaults for absent keys) or updated. -/
def processItem (st : ImportState) (it : VfItem) : ImportState :=
  let name := (strToLower it.name)
  let rules := effectiveRules it
  match dbFind st.db name it.location with
  | none =>
    let vf : VirtualFolder :=
      { name := name
        location := it.location
        filter_rules := rules
        priority := it.priority.getD 1
        is_browsable := it.is_browsable.getD false
        description := it.description.getD "" }
    { db := st.db ++ [vf], added := st.added + 1, updated := st.updated }
  | some vf =>
    let r := applyUpdates vf rules it
    if r.2 then
      { db := dbReplace st.db name it.location r.1
        added := st.added
        updated := st.updated + 1 }
    else st

/-- The command's main loop, started with zeroed counters. -/
def runImport (db : List VirtualFolder) (items : List VfItem) : ImportState :=
  items.foldl processItem { db := db, added := 0, updated := 0 }

/-- The `(lowercased name, location)` key under which an entry is
looked up and inserted. -/
def itemKey (it : VfItem) : String × String :=
  ((strToLower it.name), it.location)

/-- Outcome of reading/parsing the `--filename` argument, before the
loop runs. -/
inductive LoadResult
| ioError (strerror : String)
| badJson
| items (its : List VfItem)
deriving DecidableEq

/-- Observable outcome of the whole command: a user-facing
`CommandError`, an uncaught Python exception, or a completed run. -/
inductive CommandOutcome
| commandError (msg : String)
| pythonError (msg : String)
| done (added updated : Nat) (db : List VirtualFolder)
deriving DecidableEq

/-- `Command.handle`: `open`/`json.load` wrapped in
`except (IOError, ValueError) as e: raise CommandError(... % e.strerror)`.
An `IOError` carries `strerror`, so that branch raises the intended
`CommandError`; a `ValueError` (invalid JSON) has no `strerror`
attribute, so evaluating `e.strerror` itself raises an uncaught
`AttributeError` and no entry is processed. -/
def handleCommand (db : List VirtualFolder) : LoadResult → CommandOutcome
| .ioError s =>
  .commandError ("Some error occurred while handling the file: " ++ s)
| .badJson =>
  .pythonError "AttributeError: ValueError instance has no attribute strerror"
| .items its =>
  let st := runImport db its
  .done st.added st.updated st.db

/-! ### Spec-side definitions and auxiliary notions used by the claims -/

/-- The optional right-nested suffixes contributed by the segments
after the second: the `/`-prefixed joins of every (possibly empty)
leading run of those segments. -/
def optSuffixes : List String → List String
| [] => [""]
| x :: xs => "" :: (optSuffixes xs).map (fun s => "/" ++ x ++ s)

/-- The location language that the specification describes for the
pattern built from a segment list: a first segment equal to the input's
first one, or `{LANG}`, or `projects`; optionally a second segment
equal to the input's second one or `{PROJ}`; then right-nested optional
deeper segments.  (This definition follows the specification's words,
for comparison against the language of the generated pattern.) -/
def specExpectedLocations : List String → List String
| [] => []
| [i0] => ["/" ++ i0 ++ "/", "/{LANG}/", "/projects/"]
| i0 :: i1 :: rest =>
  [i0, "{LANG}", "projects"].flatMap (fun f =>
    ("/" ++ f ++ "/") ::
      [i1, "{PROJ}"].flatMap (fun s2 =>
        (optSuffixes rest).map (fun u => "/" ++ f ++ "/" ++ s2 ++ u ++ "/")))

/-- The per-folder test of `get_matching_for`, folded into one boolean
(used to characterise the returned list when no applicability error
occurs). -/
def ruleHitsAdjusted (stores : List String) (p : String)
    (vf : VirtualFolder) : Bool :=
  match get_adjusted_location vf p with
  | .ok location => folderRuleHits stores location p vf
  | .error _ => false

/-- A building block of a placeholder location: a literal brace-free
piece, or one of the two placeholder tokens. -/
inductive Chunk
| plain (cs : List Char)
| lang
| proj
deriving DecidableEq

/-- The characters contributed by a chunk. -/
def chunkChars : Chunk → List Char
| .plain cs => cs
| .lang => "{LANG}".data
| .proj => "{PROJ}".data

/-- The characters of a chunk list. -/
def chunksChars (bs : List Chunk) : List Char :=
  bs.flatMap chunkChars

/-- Literal chunks must be brace-free for the decomposition to be
unambiguous. -/
def chunkOk : Chunk → Bool
| .plain cs => !cs.contains '\x7b' && !cs.contains '\x7d'
| .lang => true
| .proj => true

/-- Substituting a code for the `{LANG}` chunks. -/
def substLang (code : List Char) : Chunk → Chunk
| .lang => .plain code
| b => b

/-- Substituting a code for the `{PROJ}` chunks. -/
def substProj (code : List Char) : Chunk → Chunk
| .proj => .plain code
| b => b

/-- A string whose characters contain no brace. -/
def braceFree (s : String) : Bool :=
  !s.data.contains '\x7b' && !s.data.contains '\x7d' 

/-- After a run of the import command, an input entry is in sync with
the database: its key resolves to a record whose compared fields all
equal the entry's effective values (fields whose key the entry omits
are not compared). -/
def itemSynced (db : List VirtualFolder) (it : VfItem) : Prop :=
  ∃ vf, dbFind db (strToLower it.name) it.location = some vf ∧
    vf.filter_rules = effectiveRules it ∧
    (∀ p, it.priority = some p → vf.priority = p) ∧
    (∀ b, it.is_browsable = some b → vf.is_browsable = b) ∧
    (∀ d, it.description = some d → vf.description = d)

/-! ### Concrete records used by the examples and counterexamples -/

/-- The folder of the specification's `get_matching_for` example. -/
def exVf : VirtualFolder :=
  { name := "vf"
    location := "/{LANG}/firefox/"
    filter_rules := "file1.po,file2.po"
    priority := 1
    is_browsable := true
    description := "" }

/-- The stores of the specification's `get_matching_for` example. -/
def exStores : List String :=
  ["/en/firefox/file1.po", "/fr/firefox/file2.po"]

/-- A browsable folder with a single-segment location that differs from
the queried path's first segment. -/
def shortLocVf : VirtualFolder :=
  { name := "vf"
    location := "/de/"
    filter_rules := ""
    priority := 1
    is_browsable := true
    description := "" }

/-- A browsable folder rooted at the literal `projects` prefix, which
the path pattern matches in first position on purpose. -/
def projVf : VirtualFolder :=
  { name := "pv"
    location := "/projects/firefox/"
    filter_rules := "file1.po"
    priority := 1
    is_browsable := true
    description := "" }

/-- An import entry (priority 1). -/
def dupItemA : VfItem :=
  { name := "a", location := "/l/", files := none,
    priority := some 1, is_browsable := none, description := none }

/-- The same key as `dupItemA` but priority 2. -/
def dupItemB : VfItem :=
  { name := "a", location := "/l/", files := none,
    priority := some 2, is_browsable := none, description := none }

/-- The chunk decomposition of the witness location `/{LANG}/{PROJ}/x/`. -/
def exChunks : List Chunk :=
  [Chunk.plain ['/'], Chunk.lang, Chunk.plain ['/'], Chunk.proj,
   Chunk.plain ['/', 'x', '/']]

/-- The folder used for the C6 witness. -/
def exPlaceholderVf : VirtualFolder :=
  { name := "vf2"
    location := "/{LANG}/{PROJ}/x/"
    filter_rules := ""
    priority := 1
    is_browsable := true
    description := "" }

/-- An import entry whose name has mixed case. -/
def upperItemA : VfItem :=
  { name := "AbC", location := "/l/", files := none,
    priority := none, is_browsable := none, description := none }

/-- Same entry as `upperItemA` with another casing of the name. -/
def upperItemB : VfItem :=
  { name := "ABC", location := "/l/", files := none,
    priority := none, is_browsable := none, description := none }


/-! ### Basic string facts -/

@[simp] theorem data_append (a b : String) : (a ++ b).data = a.data ++ b.data := rfl

@[simp] theorem data_mk (cs : List Char) : (String.mk cs).data = cs := rfl

@[simp] theorem data_singleton (c : Char) : (String.singleton c).data = [c] := rfl

theorem chunk_caret : ("^" : String).data = ['^'] := rfl

theorem chunk_dollar : ("$" : String).data = ['$'] := rfl

theorem chunk_lpar : ("(" : String).data = ['('] := rfl

theorem chunk_rpar : (")" : String).data = [')'] := rfl

theorem chunk_bar : ("|" : String).data = ['|'] := rfl

theorem chunk_quest : ("?" : String).data = ['?'] := rfl

theorem chunk_bslash : ("\\" : String).data = ['\\'] := rfl

theorem chunk_slash : ("/" : String).data = ['/'] := rfl

theorem chunk_head1 : ("^/((" : String).data = ['^', '/', '(', '('] := rfl

theorem chunk_alts :
    ("|\\\x7bLANG\\\x7d|projects)" : String).data =
      ['|', '\\', '\x7b', 'L', 'A', 'N', 'G', '\\', '\x7d', '|',
       'p', 'r', 'o', 'j', 'e', 'c', 't', 's', ')'] := rfl

theorem chunk_mid1 : ("|((" : String).data = ['|', '(', '('] := rfl

theorem chunk_alts2 :
    ("|\\\x7bLANG\\\x7d|projects)(/(" : String).data =
      ['|', '\\', '\x7b', 'L', 'A', 'N', 'G', '\\', '\x7d', '|',
       'p', 'r', 'o', 'j', 'e', 'c', 't', 's', ')', '(', '/', '('] := rfl

theorem chunk_proj :
    ("|\x7bPROJ\x7d)" : String).data =
      ['|', '\x7b', 'P', 'R', 'O', 'J', '\x7d', ')'] := rfl

theorem chunk_close1 : (")?)" : String).data = [')', '?', ')'] := rfl

theorem chunk_tail : (")/$" : String).data = [')', '/', '$'] := rfl

theorem chunk_group_slash : ("(/" : String).data = ['(', '/'] := rfl

theorem chunk_opt : (")?" : String).data = [')', '?'] := rfl

theorem chunk_LANG : ("LANG" : String).data = ['L', 'A', 'N', 'G'] := rfl

theorem chunk_PROJ : ("PROJ" : String).data = ['P', 'R', 'O', 'J'] := rfl

theorem chunk_projects : ("projects" : String).data =
    ['p', 'r', 'o', 'j', 'e', 'c', 't', 's'] := rfl

/-! ### The pattern string is the rendering of the pattern tree -/

theorem render_litChars : ∀ cs, (litChars cs).render = String.mk cs
| [] => rfl
| c :: cs => by
  show String.singleton c ++ (litChars cs).render = String.mk (c :: cs)
  rw [render_litChars cs]
  apply String.ext
  simp

theorem render_litRE (s : String) : (litRE s).render = s := by
  show (litChars s.data).render = s
  rw [render_litChars]

theorem render_segChars : ∀ cs, (segChars cs).render = String.mk cs
| [] => rfl
| c :: cs => by
  show ((if c = '.' then RE.any else RE.lit c).render) ++
    (segChars cs).render = String.mk (c :: cs)
  rw [render_segChars cs]
  by_cases hc : c = '.'
  · subst hc
    apply String.ext
    simp [RE.render]
  · rw [if_neg hc]
    apply String.ext
    simp [RE.render]

theorem render_segRE (s : String) : (segRE s).render = s := by
  show (segChars s.data).render = s
  rw [render_segChars]

theorem render_sublistRE : ∀ l, (sublistRE l).render = pattern_for_sublist l
| [] => rfl
| [x] => by
  apply String.ext
  simp [sublistRE, pattern_for_sublist, RE.render, render_segRE,
    chunk_group_slash, chunk_opt, chunk_lpar, chunk_rpar, chunk_quest]
| x :: y :: t => by
  apply String.ext
  simp [sublistRE, pattern_for_sublist, RE.render, render_segRE,
    render_sublistRE (y :: t), chunk_group_slash, chunk_opt, chunk_lpar,
    chunk_rpar, chunk_quest]

theorem render_threeAlt (i0 : String) :
    (threeAltRE i0).render = i0 ++ "|\\\x7bLANG\\\x7d|projects" := by
  apply String.ext
  simp [threeAltRE, RE.render, render_litRE, render_segRE, langTok, litRE,
    litChars, chunk_bar, chunk_bslash, chunk_LANG, chunk_projects,
    render_litChars]

theorem patternForItems_renders :
    ∀ items, items ≠ [] →
      patternForItems items = "^" ++ (regexForItems items).render ++ "$"
| [], h => absurd rfl h
| [i0], _ => by
  apply String.ext
  simp [patternForItems, regexForItems, RE.render, render_threeAlt,
    render_litRE, render_segRE, chunk_head1, chunk_alts, chunk_tail,
    chunk_caret, chunk_dollar, chunk_lpar, chunk_rpar, chunk_bar,
    chunk_bslash, chunk_LANG, chunk_projects]
| i0 :: i1 :: rest, _ => by
  apply String.ext
  cases rest with
  | nil =>
    simp [patternForItems, regexForItems, RE.render, render_threeAlt,
      render_litRE, render_segRE, projTok, litRE, litChars, render_litChars,
      chunk_head1, chunk_alts, chunk_mid1, chunk_alts2, chunk_proj,
      chunk_close1, chunk_tail, chunk_caret, chunk_dollar, chunk_lpar,
      chunk_rpar, chunk_bar, chunk_quest, chunk_bslash, chunk_PROJ]
  | cons r rs =>
    simp [patternForItems, regexForItems, RE.render, render_threeAlt,
      render_litRE, render_segRE, projTok, litRE, litChars, render_litChars,
      render_sublistRE (r :: rs), chunk_head1, chunk_alts, chunk_mid1,
      chunk_alts2, chunk_proj, chunk_close1, chunk_tail, chunk_caret,
      chunk_dollar, chunk_lpar, chunk_rpar, chunk_bar, chunk_quest,
      chunk_bslash, chunk_PROJ]

theorem splitCh_ne_nil (c : Char) : ∀ l, splitCh c l ≠ []
| [] => by simp [splitCh]
| a :: as => by
  by_cases h : a = c
  · simp [splitCh, h]
  · cases hs : splitCh c as with
    | nil => simp [splitCh, h, hs]
    | cons g gs => simp [splitCh, h, hs]

theorem pathItems_ne_nil (p : String) : pathItems p ≠ [] := by
  unfold pathItems splitSlash
  intro h
  exact splitCh_ne_nil '/' _ (List.map_eq_nil_iff.mp h)

theorem pattern_for_path_renders (p : String) :
    pattern_for_path p = "^" ++ (regex_for_path p).render ++ "$" :=
  patternForItems_renders (pathItems p) (pathItems_ne_nil p)


theorem str_singleton_slash : String.singleton '/' = "/" := rfl

theorem lang_eps : RE.eps.lang = [""] := rfl

theorem lang_grp (r : RE) : (RE.grp r).lang = r.lang := rfl

theorem lang_cat (a b : RE) :
    (RE.cat a b).lang = a.lang.flatMap (fun x => b.lang.map (fun y => x ++ y)) := rfl

theorem lang_alt (a b : RE) : (RE.alt a b).lang = a.lang ++ b.lang := rfl

theorem lang_opt (r : RE) : (RE.opt r).lang = "" :: r.lang := rfl

theorem lang_lit (c : Char) : (RE.lit c).lang = [String.singleton c] := rfl

theorem lang_litChars : ∀ cs, (litChars cs).lang = [String.mk cs]
| [] => rfl
| c :: cs => by
  show (RE.cat (RE.lit c) (litChars cs)).lang = [String.mk (c :: cs)]
  simp [lang_cat, lang_lit, lang_litChars cs]
  apply String.ext
  simp

theorem lang_litRE (s : String) : (litRE s).lang = [s] := by
  show (litChars s.data).lang = [s]
  rw [lang_litChars]

theorem lang_langTok : langTok.lang = ["{LANG}"] := rfl

theorem lang_projTok : projTok.lang = ["{PROJ}"] := rfl

theorem segChars_eq_litChars : ∀ cs, (∀ c ∈ cs, plainChar c = true) →
    segChars cs = litChars cs
| [], _ => rfl
| c :: cs, h => by
  have hc : plainChar c = true := h c (List.mem_cons_self c cs)
  have hdot : ¬ c = '.' := by
    intro hcc
    subst hcc
    simp [plainChar, metaChars] at hc
  show RE.cat (if c = '.' then RE.any else RE.lit c) (segChars cs) =
    RE.cat (RE.lit c) (litChars cs)
  rw [if_neg hdot,
    segChars_eq_litChars cs (fun x hx => h x (List.mem_cons_of_mem c hx))]

theorem segRE_eq_litRE (s : String) (h : plainSeg s = true) : segRE s = litRE s :=
  segChars_eq_litChars s.data (by simpa [plainSeg, List.all_eq_true] using h)

theorem anyFree_litChars : ∀ cs, (litChars cs).anyFree = true
| [] => rfl
| c :: cs => by
  show (RE.cat (RE.lit c) (litChars cs)).anyFree = true
  simp [RE.anyFree, anyFree_litChars cs]

theorem anyFree_litRE (s : String) : (litRE s).anyFree = true :=
  anyFree_litChars s.data

theorem anyFree_segRE (s : String) (h : plainSeg s = true) :
    (segRE s).anyFree = true := by
  rw [segRE_eq_litRE s h]
  exact anyFree_litRE s

theorem anyFree_langTok : langTok.anyFree = true := rfl

theorem anyFree_projTok : projTok.anyFree = true := rfl

theorem anyFree_threeAlt (i0 : String) (h0 : plainSeg i0 = true) :
    (threeAltRE i0).anyFree = true := by
  simp [threeAltRE, RE.anyFree, anyFree_segRE i0 h0, anyFree_langTok,
    anyFree_projTok, anyFree_litRE]

theorem anyFree_sublistRE : ∀ l, (∀ x ∈ l, plainSeg x = true) →
    (sublistRE l).anyFree = true
| [], _ => rfl
| [x], h => by
  simp [sublistRE, RE.anyFree, anyFree_segRE x (h x (List.mem_cons_self x []))]
| x :: y :: t, h => by
  simp [sublistRE, RE.anyFree,
    anyFree_segRE x (h x (List.mem_cons_self x (y :: t))),
    anyFree_sublistRE (y :: t) (fun z hz => h z (List.mem_cons_of_mem x hz))]

theorem anyFree_regexForItems : ∀ items, (∀ x ∈ items, plainSeg x = true) →
    (regexForItems items).anyFree = true
| [], _ => rfl
| [i0], h => by
  have h0 : plainSeg i0 = true := h i0 (List.mem_cons_self i0 [])
  simp [regexForItems, RE.anyFree, anyFree_threeAlt i0 h0, anyFree_segRE i0 h0,
    anyFree_langTok, anyFree_projTok, anyFree_litRE]
| i0 :: i1 :: rest, h => by
  have h0 : plainSeg i0 = true := h i0 (List.mem_cons_self i0 (i1 :: rest))
  have h1 : plainSeg i1 = true := h i1 (by simp)
  have hr : ∀ x ∈ rest, plainSeg x = true := fun x hx => h x (by simp [hx])
  by_cases hres : rest = []
  · subst hres
    simp [regexForItems, RE.anyFree, anyFree_threeAlt i0 h0, anyFree_segRE i0 h0,
      anyFree_segRE i1 h1, anyFree_projTok, anyFree_langTok, anyFree_litRE]
  · simp [regexForItems, RE.anyFree, hres, anyFree_threeAlt i0 h0,
      anyFree_segRE i0 h0, anyFree_segRE i1 h1, anyFree_projTok, anyFree_langTok,
      anyFree_litRE, anyFree_sublistRE rest hr]

theorem mrec_eps (s : List Char) (k : List Char → Bool) :
    mrec RE.eps s k = k s := rfl

theorem mrec_lit_nil (c : Char) (k : List Char → Bool) :
    mrec (RE.lit c) [] k = false := rfl

theorem mrec_lit_cons (c d : Char) (t : List Char) (k : List Char → Bool) :
    mrec (RE.lit c) (d :: t) k = if c = d then k t else false := rfl

theorem mrec_esc_nil (c : Char) (k : List Char → Bool) :
    mrec (RE.esc c) [] k = false := rfl

theorem mrec_esc_cons (c d : Char) (t : List Char) (k : List Char → Bool) :
    mrec (RE.esc c) (d :: t) k = if c = d then k t else false := rfl

theorem mrec_grp (r : RE) (s : List Char) (k : List Char → Bool) :
    mrec (RE.grp r) s k = mrec r s k := rfl

theorem mrec_cat (a b : RE) (s : List Char) (k : List Char → Bool) :
    mrec (RE.cat a b) s k = mrec a s (fun t => mrec b t k) := rfl

theorem mrec_alt (a b : RE) (s : List Char) (k : List Char → Bool) :
    mrec (RE.alt a b) s k = (mrec a s k || mrec b s k) := rfl

theorem mrec_opt (r : RE) (s : List Char) (k : List Char → Bool) :
    mrec (RE.opt r) s k = (k s || mrec r s k) := rfl

theorem litlike_iff (c : Char) (s : List Char) (k : List Char → Bool) (m : Bool)
    (hnil : s = [] → m = false)
    (hcons : ∀ d t, s = d :: t → m = (if c = d then k t else false)) :
    (m = true ↔ ∃ s1 s2 : List Char, s = s1 ++ s2 ∧
      String.mk s1 ∈ [String.singleton c] ∧ k s2 = true) := by
  cases s with
  | nil =>
    rw [hnil rfl]
    constructor
    · intro h
      exact absurd h (by simp)
    · rintro ⟨s1, s2, heq, hmk, hk⟩
      rw [List.mem_singleton] at hmk
      have h1 : s1 = [c] := congrArg String.data hmk
      subst h1
      exact absurd heq (by simp)
  | cons d t =>
    rw [hcons d t rfl]
    constructor
    · intro h
      by_cases hcd : c = d
      · rw [if_pos hcd] at h
        subst hcd
        exact ⟨[c], t, rfl, List.mem_singleton.mpr rfl, h⟩
      · rw [if_neg hcd] at h
        exact absurd h (by simp)
    · rintro ⟨s1, s2, heq, hmk, hk⟩
      rw [List.mem_singleton] at hmk
      have h1 : s1 = [c] := congrArg String.data hmk
      subst h1
      rw [List.cons_append, List.nil_append] at heq
      injection heq with h2 h3
      subst h2
      subst h3
      rw [if_pos rfl]
      exact hk

theorem mrec_iff : ∀ (r : RE), r.anyFree = true →
    ∀ (s : List Char) (k : List Char → Bool),
    (mrec r s k = true ↔ ∃ s1 s2 : List Char,
      s = s1 ++ s2 ∧ String.mk s1 ∈ r.lang ∧ k s2 = true)
| .eps, _, s, k => by
  rw [mrec_eps]
  constructor
  · intro h
    exact ⟨[], s, rfl, List.mem_singleton.mpr rfl, h⟩
  · rintro ⟨s1, s2, heq, hmk, hk⟩
    rw [lang_eps, List.mem_singleton] at hmk
    have h1 : s1 = [] := congrArg String.data hmk
    subst h1
    rw [heq]
    exact hk
| .lit c, _, s, k =>
  litlike_iff c s k (mrec (RE.lit c) s k)
    (fun h => by rw [h, mrec_lit_nil])
    (fun d t h => by rw [h, mrec_lit_cons])
| .esc c, _, s, k =>
  litlike_iff c s k (mrec (RE.esc c) s k)
    (fun h => by rw [h, mrec_esc_nil])
    (fun d t h => by rw [h, mrec_esc_cons])
| .any, hA, _, _ => by
  simp [RE.anyFree] at hA
| .grp r, hA, s, k => by
  rw [mrec_grp, mrec_iff r (by simpa [RE.anyFree] using hA) s k]
  exact Iff.rfl
| .cat a b, hA, s, k => by
  have hA2 : a.anyFree = true ∧ b.anyFree = true := by
    simpa [RE.anyFree, Bool.and_eq_true] using hA
  rw [mrec_cat, mrec_iff a hA2.1 s (fun t => mrec b t k)]
  constructor
  · rintro ⟨s1, s2, heq, hm1, hk⟩
    replace hk := (mrec_iff b hA2.2 s2 k).mp hk
    rcases hk with ⟨s3, s4, heq2, hm2, hk4⟩
    refine ⟨s1 ++ s3, s4, ?_, ?_, hk4⟩
    · rw [heq, heq2, List.append_assoc]
    · show String.mk (s1 ++ s3) ∈ (RE.cat a b).lang
      rw [lang_cat]
      exact List.mem_flatMap.mpr
        ⟨String.mk s1, hm1, List.mem_map.mpr ⟨String.mk s3, hm2, rfl⟩⟩
  · rintro ⟨u, s4, heq, hm, hk4⟩
    rw [lang_cat] at hm
    rcases List.mem_flatMap.mp hm with ⟨x, hx, hmap⟩
    rcases List.mem_map.mp hmap with ⟨y, hy, hxy⟩
    have hu : x.data ++ y.data = u := congrArg String.data hxy
    refine ⟨x.data, y.data ++ s4, ?_, hx, ?_⟩
    · rw [heq, ← hu, List.append_assoc]
    · exact (mrec_iff b hA2.2 (y.data ++ s4) k).mpr ⟨y.data, s4, rfl, hy, hk4⟩
| .alt a b, hA, s, k => by
  have hA2 : a.anyFree = true ∧ b.anyFree = true := by
    simpa [RE.anyFree, Bool.and_eq_true] using hA
  rw [mrec_alt, Bool.or_eq_true, mrec_iff a hA2.1 s k, mrec_iff b hA2.2 s k]
  constructor
  · rintro (⟨s1, s2, heq, hm, hk⟩ | ⟨s1, s2, heq, hm, hk⟩)
    · exact ⟨s1, s2, heq, by rw [lang_alt]; exact List.mem_append_left _ hm, hk⟩
    · exact ⟨s1, s2, heq, by rw [lang_alt]; exact List.mem_append_right _ hm, hk⟩
  · rintro ⟨s1, s2, heq, hm, hk⟩
    rw [lang_alt] at hm
    rcases List.mem_append.mp hm with h | h
    · exact Or.inl ⟨s1, s2, heq, h, hk⟩
    · exact Or.inr ⟨s1, s2, heq, h, hk⟩
| .opt r, hA, s, k => by
  have hAr : r.anyFree = true := by simpa [RE.anyFree] using hA
  rw [mrec_opt, Bool.or_eq_true, mrec_iff r hAr s k]
  constructor
  · rintro (hk | ⟨s1, s2, heq, hm, hk⟩)
    · refine ⟨[], s, rfl, ?_, hk⟩
      rw [lang_opt]
      exact List.mem_cons_self _ _
    · refine ⟨s1, s2, heq, ?_, hk⟩
      rw [lang_opt]
      exact List.mem_cons_of_mem _ hm
  · rintro ⟨s1, s2, heq, hm, hk⟩
    rw [lang_opt] at hm
    rcases List.mem_cons.mp hm with h | h
    · left
      have h1 : s1 = [] := congrArg String.data h
      subst h1
      rw [heq]
      exact hk
    · right
      exact ⟨s1, s2, heq, h, hk⟩

theorem rmatch_iff_mem (r : RE) (hA : r.anyFree = true) (s : String) :
    (r.rmatch s = true ↔ s ∈ r.lang) := by
  show mrec r s.data (fun t => t.isEmpty) = true ↔ s ∈ r.lang
  rw [mrec_iff r hA s.data (fun t => t.isEmpty)]
  constructor
  · rintro ⟨s1, s2, heq, hm, hk⟩
    have h2 : s2 = [] := by simpa using hk
    subst h2
    rw [List.append_nil] at heq
    have hs : s = String.mk s1 := String.ext heq
    rw [hs]
    exact hm
  · intro hm
    exact ⟨s.data, [], (List.append_nil s.data).symm, hm, rfl⟩

theorem lang_threeAlt (i0 : String) (h0 : plainSeg i0 = true) :
    (threeAltRE i0).lang = [i0, "{LANG}", "projects"] := by
  simp [threeAltRE, lang_alt, segRE_eq_litRE i0 h0, lang_litRE, lang_langTok,
    lang_projTok]

theorem lang_sublistRE : ∀ l, (∀ x ∈ l, plainSeg x = true) →
    (sublistRE l).lang = optSuffixes l
| [], _ => rfl
| [x], h => by
  simp [sublistRE, optSuffixes, lang_opt, lang_grp, lang_cat, lang_lit,
    segRE_eq_litRE x (h x (List.mem_cons_self x [])), lang_litRE,
    str_singleton_slash]
| x :: y :: t, h => by
  simp [sublistRE, optSuffixes, lang_opt, lang_grp, lang_cat, lang_lit,
    segRE_eq_litRE x (h x (List.mem_cons_self x (y :: t))), lang_litRE,
    str_singleton_slash,
    lang_sublistRE (y :: t) (fun z hz => h z (List.mem_cons_of_mem x hz)),
    List.map_map, String.append_assoc, Function.comp]

theorem lang_sublistGuard (l : List String) (h : ∀ x ∈ l, plainSeg x = true) :
    (if l = [] then RE.eps else sublistRE l).lang = optSuffixes l := by
  by_cases hl : l = []
  · subst hl
    simp [lang_eps, optSuffixes]
  · rw [if_neg hl, lang_sublistRE l h]

theorem exists_comp_iff (s : List String) (f : String → String) (loc : String) :
    (∃ a, (∃ u ∈ s, a = f u) ∧ "/" ++ a = loc) ↔ ∃ u ∈ s, "/" ++ f u = loc := by
  constructor
  · rintro ⟨a, ⟨u, hu, rfl⟩, h⟩
    exact ⟨u, hu, h⟩
  · rintro ⟨u, hu, h⟩
    exact ⟨f u, ⟨u, hu, rfl⟩, h⟩

set_option maxHeartbeats 1000000 in
theorem mem_lang_regexForItems (i0 : String) (rest : List String) (loc : String)
    (hplain : ∀ x ∈ i0 :: rest, plainSeg x = true) :
    loc ∈ (regexForItems (i0 :: rest)).lang ↔
      loc ∈ specExpectedLocations (i0 :: rest) := by
  have h0 : plainSeg i0 = true := hplain i0 (List.mem_cons_self i0 rest)
  cases rest with
  | nil =>
    simp [regexForItems, specExpectedLocations, lang_cat, lang_grp, lang_lit,
      lang_threeAlt i0 h0, str_singleton_slash, String.append_assoc]
  | cons i1 rest2 =>
    have h1 : plainSeg i1 = true := hplain i1 (by simp)
    have hr : ∀ x ∈ rest2, plainSeg x = true := fun x hx => hplain x (by simp [hx])
    simp only [regexForItems, specExpectedLocations, lang_cat, lang_grp,
      lang_alt, lang_opt, lang_lit, lang_threeAlt i0 h0,
      segRE_eq_litRE i1 h1, lang_litRE, lang_projTok,
      lang_sublistGuard rest2 hr, str_singleton_slash]
    simp [String.append_assoc, String.append_empty]
    rw [exists_comp_iff (optSuffixes rest2) (fun u => i0 ++ ("/" ++ (i1 ++ (u ++ "/")))) loc,
      exists_comp_iff (optSuffixes rest2) (fun u => i0 ++ ("/" ++ ("{PROJ}" ++ (u ++ "/")))) loc,
      exists_comp_iff (optSuffixes rest2) (fun u => "{LANG}" ++ ("/" ++ (i1 ++ (u ++ "/")))) loc,
      exists_comp_iff (optSuffixes rest2) (fun u => "{LANG}" ++ ("/" ++ ("{PROJ}" ++ (u ++ "/")))) loc,
      exists_comp_iff (optSuffixes rest2) (fun u => "projects" ++ ("/" ++ (i1 ++ (u ++ "/")))) loc,
      exists_comp_iff (optSuffixes rest2) (fun u => "projects" ++ ("/" ++ ("{PROJ}" ++ (u ++ "/")))) loc]
    itauto

theorem locationMatches_iff_mem (p loc : String)
    (hplain : ∀ seg ∈ pathItems p, plainSeg seg = true) :
    (locationMatches p loc = true ↔ loc ∈ (regex_for_path p).lang) := by
  show (regex_for_path p).rmatch loc = true ↔ loc ∈ (regex_for_path p).lang
  refine rmatch_iff_mem (regex_for_path p) ?_ loc
  show (regexForItems (pathItems p)).anyFree = true
  exact anyFree_regexForItems (pathItems p) hplain


/-! ### Claim C1 -/

/-- C1 counterexample: for the input path `/a.b/` the built pattern
interpolates the segment `a.b` unescaped, so under Python `re`
semantics its dot is a metacharacter matching any character, and the
anchored pattern accepts the location `/axb/` — whose only segment is
neither the input's segment `a.b` nor `{LANG}` nor `projects`.  This
refutes the exact-segment-match reading for arbitrary paths. -/
theorem C1_counterexample :
    locationMatches "/a.b/" "/axb/" = true ∧
    pathItems "/a.b/" = ["a.b"] ∧
    "/axb/" ∉ specExpectedLocations ["a.b"] := by
  decide

/-- C1 (amended to paths whose segments are free of regex
metacharacters): for every slash-delimited input path with
metacharacter-free segments, `pattern_for_path` returns a regex
anchored at start and end (it is the rendering of the pattern tree
between `^` and `$`), which matches a location exactly when the
location consists of a first segment equal to the input's first
segment or `{LANG}` or `projects`, optionally a second segment equal to
the input's second segment or `{PROJ}`, then right-nested optional
deeper input segments; and for a single-segment input the pattern
matches exactly `/seg/`, `/{LANG}/` and `/projects/`.  (Segments are
interpolated unescaped, so a segment containing a metacharacter changes
the matched set — see the counterexample.) -/
theorem C1_pattern_for_path (p : String)
    (hplain : ∀ seg ∈ pathItems p, plainSeg seg = true) :
    pattern_for_path p = "^" ++ (regex_for_path p).render ++ "$" ∧
    (∀ loc, locationMatches p loc = true ↔
      loc ∈ specExpectedLocations (pathItems p)) ∧
    (∀ i0, pathItems p = [i0] →
      ∀ loc, locationMatches p loc = true ↔
        (loc = "/" ++ i0 ++ "/" ∨ loc = "/{LANG}/" ∨ loc = "/projects/")) := by
  have hmem : ∀ loc, locationMatches p loc = true ↔
      loc ∈ specExpectedLocations (pathItems p) := by
    intro loc
    rw [locationMatches_iff_mem p loc hplain]
    rcases hp : pathItems p with _ | ⟨i0, rest⟩
    · exact absurd hp (pathItems_ne_nil p)
    · have hplain2 : ∀ x ∈ i0 :: rest, plainSeg x = true := by
        rw [← hp]
        exact hplain
      show loc ∈ (regexForItems (pathItems p)).lang ↔ _
      rw [hp]
      exact mem_lang_regexForItems i0 rest loc hplain2
  refine ⟨pattern_for_path_renders p, hmem, ?_⟩
  intro i0 h loc
  rw [hmem loc, h]
  simp [specExpectedLocations]

/-- Witness for C1 at the single-segment, metacharacter-free path
`/p/`. -/
theorem C1_pattern_for_path_witness :
    (∀ seg ∈ pathItems "/p/", plainSeg seg = true) ∧
    locationMatches "/p/" "/projects/" = true :=
  ⟨by decide,
    ((C1_pattern_for_path "/p/" (by decide)).2.2 "p" (by decide) "/projects/").mpr
      (Or.inr (Or.inr rfl))⟩

/-! ### Claim C2 -/

theorem mem_splitCh_not_mem (c : Char) : ∀ l, ∀ g ∈ splitCh c l, c ∉ g
| [], g, hg => by
  simp [splitCh] at hg
  simp [hg]
| a :: as, g, hg => by
  by_cases h : a = c
  · rw [splitCh, if_pos h] at hg
    rcases List.mem_cons.mp hg with h1 | h1
    · simp [h1]
    · exact mem_splitCh_not_mem c as g h1
  · rw [splitCh, if_neg h] at hg
    rcases hs : splitCh c as with _ | ⟨g0, gs⟩
    · exact absurd hs (splitCh_ne_nil c as)
    · rw [hs] at hg
      rcases List.mem_cons.mp hg with h1 | h1
      · subst h1
        intro hc
        rcases List.mem_cons.mp hc with h2 | h2
        · exact h h2.symm
        · exact mem_splitCh_not_mem c as g0 (by rw [hs]; exact List.mem_cons_self g0 gs) h2
      · exact mem_splitCh_not_mem c as g (by rw [hs]; exact List.mem_cons_of_mem g0 h1)

theorem length_splitCh (c : Char) : ∀ l, (splitCh c l).length = l.count c + 1
| [] => by simp [splitCh]
| a :: as => by
  by_cases h : a = c
  · rw [splitCh, if_pos h]
    simp [List.count_cons, h, length_splitCh c as]
  · rw [splitCh, if_neg h]
    rcases hs : splitCh c as with _ | ⟨g0, gs⟩
    · exact absurd hs (splitCh_ne_nil c as)
    · have := length_splitCh c as
      rw [hs] at this
      simp at this
      simp [List.count_cons, h, this]

theorem joinCh_splitCh (c : Char) : ∀ l, joinCh c (splitCh c l) = l
| [] => by simp [splitCh, joinCh]
| a :: as => by
  by_cases h : a = c
  · rw [splitCh, if_pos h]
    rcases hs : splitCh c as with _ | ⟨g0, gs⟩
    · exact absurd hs (splitCh_ne_nil c as)
    · have := joinCh_splitCh c as
      rw [hs] at this
      rw [joinCh]
      simp [h, this]
  · rw [splitCh, if_neg h]
    rcases hs : splitCh c as with _ | ⟨g0, gs⟩
    · exact absurd hs (splitCh_ne_nil c as)
    · have := joinCh_splitCh c as
      rw [hs] at this
      cases gs with
      | nil => simp [joinCh] at this ⊢; rw [this]
      | cons g1 gs' => rw [joinCh]; rw [joinCh] at this; simp [this]

theorem splitCh_single_of_not_mem (c : Char) (g : List Char) (hg : c ∉ g) :
    splitCh c g = [g] := by
  induction g with
  | nil => rfl
  | cons a g' ih =>
    have ha : a ≠ c := fun h => hg (h ▸ List.mem_cons_self a g')
    have hg' : c ∉ g' := fun h => hg (List.mem_cons_of_mem a h)
    rw [splitCh, if_neg ha, ih hg']

theorem splitCh_append_of_not_mem (c : Char) :
    ∀ (g l : List Char), c ∉ g → ∀ h t, splitCh c l = h :: t →
      splitCh c (g ++ l) = (g ++ h) :: t
| [], l, _, h, t, hl => by simpa using hl
| a :: g', l, hg, h, t, hl => by
  have ha : a ≠ c := fun hh => hg (hh ▸ List.mem_cons_self a g')
  have hg' : c ∉ g' := fun hh => hg (List.mem_cons_of_mem a hh)
  have := splitCh_append_of_not_mem c g' l hg' h t hl
  rw [List.cons_append, splitCh, if_neg ha, this]
  rfl

theorem splitCh_joinCh_of_pieces (c : Char) :
    ∀ gs : List (List Char), gs ≠ [] → (∀ g ∈ gs, c ∉ g) →
      splitCh c (joinCh c gs) = gs
| [], h, _ => absurd rfl h
| [g], _, hfree => by
  rw [joinCh, splitCh_single_of_not_mem c g (hfree g (List.mem_cons_self g []))]
| g :: g' :: t, _, hfree => by
  rw [joinCh]
  have hg : c ∉ g := hfree g (List.mem_cons_self _ _)
  have ih := splitCh_joinCh_of_pieces c (g' :: t) (by simp)
    (fun x hx => hfree x (List.mem_cons_of_mem g hx))
  have hstep : splitCh c (c :: joinCh c (g' :: t)) = [] :: (g' :: t) := by
    rw [splitCh, if_pos rfl, ih]
  have := splitCh_append_of_not_mem c g (c :: joinCh c (g' :: t)) hg _ _ hstep
  rw [this]
  simp

theorem joinCh_append (c : Char) :
    ∀ xs ys : List (List Char), xs ≠ [] → ys ≠ [] →
      joinCh c (xs ++ ys) = joinCh c xs ++ c :: joinCh c ys
| [], _, hx, _ => absurd rfl hx
| [x], y :: t, _, _ => by simp [joinCh]
| x :: x' :: xs', ys, _, hy => by
  have ih := joinCh_append c (x' :: xs') ys (by simp) hy
  simp only [List.cons_append] at ih ⊢
  rw [joinCh, ih, joinCh]
  simp

theorem joinCh_take_isLeading (c : Char) (gs : List (List Char)) (n : Nat) :
    joinCh c (gs.take n) <+: joinCh c gs := by
  by_cases hn : gs.length ≤ n
  · rw [List.take_of_length_le hn]
  · by_cases h0 : n = 0
    · subst h0
      simp [joinCh]
    · have hglen : n < gs.length := by omega
      have htake : gs.take n ≠ [] := by
        intro h
        have := congrArg List.length h
        simp [Nat.min_eq_left (Nat.le_of_lt hglen)] at this
        omega
      have hdrop : gs.drop n ≠ [] := by
        intro h
        have := congrArg List.length h
        simp at this
        omega
      have hsplit := joinCh_append c (gs.take n) (gs.drop n) htake hdrop
      rw [List.take_append_drop] at hsplit
      exact ⟨c :: joinCh c (gs.drop n), hsplit.symm⟩


theorem joinSlash_splitSlash (p : String) : joinSlash (splitSlash p) = p := by
  unfold joinSlash splitSlash
  rw [List.map_map]
  have hid : (String.data ∘ String.mk) = id := funext fun l => rfl
  rw [hid, List.map_id, joinCh_splitCh]

theorem length_splitSlash (p : String) :
    (splitSlash p).length = countCh '/' p + 1 := by
  unfold splitSlash countCh
  simp [length_splitCh]

theorem data_joinSlash_take (p : String) (n : Nat) :
    (joinSlash ((splitSlash p).take n)).data =
      joinCh '/' ((splitCh '/' p.data).take n) := by
  unfold joinSlash splitSlash
  rw [← List.map_take, List.map_map]
  have hid : (String.data ∘ String.mk) = id := funext fun l => rfl
  rw [hid, List.map_id]

theorem take_joinSlash_leading (p : String) (n : Nat) :
    (joinSlash ((splitSlash p).take n)).data <+: p.data := by
  rw [data_joinSlash_take]
  conv_rhs => rw [← joinCh_splitCh '/' p.data]
  exact joinCh_take_isLeading '/' (splitCh '/' p.data) n

theorem splitSlash_joinSlash_take (p : String) (n : Nat) (hn : 1 ≤ n) :
    splitSlash (joinSlash ((splitSlash p).take n)) = (splitSlash p).take n := by
  have hne : (splitCh '/' p.data).take n ≠ [] := by
    intro h
    have hlen := congrArg List.length h
    simp at hlen
    rcases hlen with h1 | h2
    · omega
    · exact splitCh_ne_nil '/' p.data h2
  have hfree : ∀ g ∈ (splitCh '/' p.data).take n, '/' ∉ g := fun g hg =>
    mem_splitCh_not_mem '/' p.data g (List.mem_of_mem_take hg)
  show (splitCh '/' (joinSlash ((splitSlash p).take n)).data).map String.mk =
    (splitSlash p).take n
  rw [data_joinSlash_take, splitCh_joinCh_of_pieces '/' _ hne hfree]
  show _ = ((splitCh '/' p.data).map String.mk).take n
  rw [List.map_take]

/-! ### Claims C4 and C5 -/

/-- C4 counterexample: for the stored location `/de/` (a single
segment) and path `/gl/firefox/`, the slash-count precondition holds
and the location has fewer than 2 segments, so the claim predicts no
applicability error, yet `get_adjusted_location` signals one (the
first-segment comparison is not skipped for short locations). -/
theorem C4_counterexample :
    (get_adjusted_location shortLocVf "/gl/firefox/").isOk = false ∧
    countCh '/' shortLocVf.location ≤ countCh '/' "/gl/firefox/" ∧
    (splitSlash (stripSlashes shortLocVf.location)).length < 2 := by decide

/-- C4 (amended): `get_adjusted_location` signals an applicability
error exactly when the path has fewer slashes than the stored location,
or the location's first segment neither equals the path's first segment
nor `{LANG}` (this check always runs), or both the stripped location
and the stripped path have a second segment and the location's second
segment neither equals the path's nor `{PROJ}` (so the second-segment
validation, not the whole validation, is skipped precisely when either
side has fewer than 2 segments). -/
theorem C4_adjusted_location_errors (vf : VirtualFolder) (p : String) :
    (get_adjusted_location vf p).isOk = false ↔
      (countCh '/' p < countCh '/' vf.location ∨
        ((splitSlash (stripSlashes vf.location)).headD "" ≠
            (splitSlash (stripSlashes p)).headD "" ∧
          (splitSlash (stripSlashes vf.location)).headD "" ≠ "{LANG}") ∨
        (∃ l1 p1, (splitSlash (stripSlashes vf.location)).get? 1 = some l1 ∧
          (splitSlash (stripSlashes p)).get? 1 = some p1 ∧
          l1 ≠ p1 ∧ l1 ≠ "{PROJ}")) := by
  simp only [get_adjusted_location]
  split
  · rename_i hc
    simp_all [Except.isOk, Except.toBool]
  · rename_i hc
    split
    · rename_i h1
      simp_all [Except.isOk, Except.toBool]
    · rename_i h1
      split
      · rename_i hl
        simp_all [Except.isOk, Except.toBool]
        refine ⟨h1, ?_⟩
        intro x hx
        rw [List.getElem?_eq_none hl] at hx
        exact Option.noConfusion hx
      · rename_i l1 hl
        split
        · rename_i hp2
          simp_all [Except.isOk, Except.toBool]
          refine ⟨h1, ?_⟩
          intro x hx
          rw [List.getElem?_eq_none hp2] at hx
          exact Option.noConfusion hx
        · rename_i p1 hp2
          split
          · rename_i h2
            simp_all [Except.isOk, Except.toBool]
          · rename_i h2
            simp_all [Except.isOk, Except.toBool]
            exact ⟨h1, h2⟩

/-- C5: a successful `get_adjusted_location` returns the queried path
truncated to as many slash-separated pieces as the stored location has
slashes: the join of the first `count` pieces of `p.split("/")`, a
prefix of the path, with exactly `count` pieces. -/
theorem C5_adjusted_location_truncates (vf : VirtualFolder) (p r : String)
    (h : get_adjusted_location vf p = Except.ok r) :
    r = joinSlash ((splitSlash p).take (countCh '/' vf.location)) ∧
    r.data <+: p.data ∧
    (1 ≤ countCh '/' vf.location →
      (splitSlash r).length = countCh '/' vf.location) := by
  have key : ¬ countCh '/' p < countCh '/' vf.location ∧
      r = joinSlash ((splitSlash p).take (countCh '/' vf.location)) := by
    simp only [get_adjusted_location] at h
    by_cases hc : countCh '/' p < countCh '/' vf.location
    · rw [if_pos hc] at h
      cases h
    · rw [if_neg hc] at h
      refine ⟨hc, ?_⟩
      repeat' split at h
      all_goals simp_all
  rcases key with ⟨hc, hr⟩
  refine ⟨hr, hr ▸ take_joinSlash_leading p _, ?_⟩
  intro hcount
  rw [hr, splitSlash_joinSlash_take p _ hcount, List.length_take,
    length_splitSlash]
  omega

/-- Witness for C5 at the example folder and the path `/en/firefox/`. -/
theorem C5_adjusted_location_truncates_witness :
    ("/en/firefox" : String) =
      joinSlash ((splitSlash "/en/firefox/").take (countCh '/' exVf.location)) ∧
    ("/en/firefox" : String).data <+: ("/en/firefox/" : String).data ∧
    (1 ≤ countCh '/' exVf.location →
      (splitSlash "/en/firefox").length = countCh '/' exVf.location) :=
  C5_adjusted_location_truncates exVf "/en/firefox/" "/en/firefox" rfl



theorem matchingLoop_ok (stores : List String) (p : String) :
    ∀ l : List VirtualFolder,
      (∀ vf ∈ l, (get_adjusted_location vf p).isOk = true) →
      matchingLoop stores p l =
        Except.ok (l.filter (ruleHitsAdjusted stores p))
| [], _ => rfl
| vf :: rest, h => by
  have hvf := h vf (List.mem_cons_self vf rest)
  rcases hadj : get_adjusted_location vf p with e | loc0
  · rw [hadj] at hvf
    cases hvf
  · have ih := matchingLoop_ok stores p rest
      (fun x hx => h x (List.mem_cons_of_mem vf hx))
    rw [matchingLoop, hadj, ih, List.filter_cons]
    by_cases hhit : folderRuleHits stores loc0 p vf
    · simp [ruleHitsAdjusted, hadj, hhit]
    · simp [ruleHitsAdjusted, hadj, hhit]

/-! ### Claim C3 -/

/-- C3 counterexample: the pattern makes a browsable folder at
`/projects/firefox/` applicable for the ordinary language path
`/gl/firefox/`, but `get_adjusted_location` rejects it (`projects` is
neither the path's first segment nor `{LANG}`), so
`get_matching_for` propagates that error instead of returning a list —
the claim's unconditional return of the matching folders fails without
the adjusted-location proviso. -/
theorem C3_counterexample :
    projVf ∈ get_applicable_for [projVf] "/gl/firefox/" ∧
    (get_matching_for [projVf] ["/gl/firefox/file1.po"] "/gl/firefox/").isOk
      = false := by
  decide

/-- C3 (amended with the adjusted-location proviso): when every
applicable folder admits an adjusted location,
`get_matching_for` returns exactly the applicable folders for which
some filter-rule filename appended to the adjusted location yields a
store path extending the queried path (the per-folder scan stopping at
the first hit); on the specification's example, `/en/firefox/` keeps
the folder and `/de/firefox/` does not. -/
theorem C3_get_matching_for (db : List VirtualFolder) (stores : List String)
    (p : String) :
    ((∀ vf ∈ get_applicable_for db p,
        (get_adjusted_location vf p).isOk = true) →
      get_matching_for db stores p =
        Except.ok ((get_applicable_for db p).filter
          (ruleHitsAdjusted stores p))) ∧
    get_matching_for [exVf] exStores "/en/firefox/" = Except.ok [exVf] ∧
    get_matching_for [exVf] exStores "/de/firefox/" = Except.ok [] := by
  refine ⟨?_, rfl, rfl⟩
  intro hok
  exact matchingLoop_ok stores p (get_applicable_for db p) hok

/-- Witness for C3 on the example database, stores and path. -/
theorem C3_get_matching_for_witness :
    get_matching_for [exVf] exStores "/en/firefox/" =
      Except.ok ((get_applicable_for [exVf] "/en/firefox/").filter
        (ruleHitsAdjusted exStores "/en/firefox/")) :=
  (C3_get_matching_for [exVf] exStores "/en/firefox/").1 (by decide)



theorem chunk_tokLANG : ("{LANG}" : String).data =
    ['\x7b', 'L', 'A', 'N', 'G', '\x7d'] := rfl

theorem chunk_tokPROJ : ("{PROJ}" : String).data =
    ['\x7b', 'P', 'R', 'O', 'J', '\x7d'] := rfl

theorem isPrefixOf_append_self (l r : List Char) :
    l.isPrefixOf (l ++ r) = true := by
  induction l with
  | nil => simp [List.isPrefixOf]
  | cons a as ih => simp [List.isPrefixOf, ih]

theorem replaceChars_nil (pat code : List Char) :
    replaceChars pat code [] = [] := by
  simp [replaceChars]

theorem replaceChars_hit (pat code cs : List Char) (hne : pat ≠ []) :
    replaceChars pat code (pat ++ cs) = code ++ replaceChars pat code cs := by
  cases pat with
  | nil => exact absurd rfl hne
  | cons p0 pat' =>
    rw [List.cons_append, replaceChars, dif_pos
      ⟨by simp, by simp [isPrefixOf_append_self (p0 :: pat') cs]⟩]
    congr 1
    show replaceChars _ _ (((p0 :: pat') ++ cs).drop (p0 :: pat').length) = _
    rw [List.drop_left]

theorem replaceChars_skip_char (p0 : Char) (pat' code : List Char) (c : Char)
    (cs : List Char) (hne : p0 ≠ c) :
    replaceChars (p0 :: pat') code (c :: cs) =
      c :: replaceChars (p0 :: pat') code cs := by
  rw [replaceChars, dif_neg]
  rintro ⟨_, hpre⟩
  simp [List.isPrefixOf, hne] at hpre

theorem replaceChars_skip_block (p0 : Char) (pat' code : List Char)
    (g cs : List Char) (hg : p0 ∉ g) :
    replaceChars (p0 :: pat') code (g ++ cs) =
      g ++ replaceChars (p0 :: pat') code cs := by
  induction g with
  | nil => rfl
  | cons a g' ih =>
    have ha : p0 ≠ a := fun h => hg (h ▸ List.mem_cons_self a g')
    have hg' : p0 ∉ g' := fun h => hg (List.mem_cons_of_mem a h)
    rw [List.cons_append, replaceChars_skip_char p0 pat' code a _ ha, ih hg']
    rfl

theorem replace_LANG_skips_PROJ (code cs : List Char) :
    replaceChars ("{LANG}" : String).data code (("{PROJ}" : String).data ++ cs) =
      ("{PROJ}" : String).data ++ replaceChars ("{LANG}" : String).data code cs := by
  rw [chunk_tokLANG, chunk_tokPROJ]
  rw [show (['\x7b', 'P', 'R', 'O', 'J', '\x7d'] ++ cs) =
    '\x7b' :: (['P', 'R', 'O', 'J', '\x7d'] ++ cs) from rfl]
  rw [replaceChars, dif_neg]
  · rw [replaceChars_skip_block '\x7b' _ code ['P', 'R', 'O', 'J', '\x7d'] cs
      (by decide)]
    rfl
  · rintro ⟨_, hpre⟩
    simp [List.isPrefixOf] at hpre

theorem replace_PROJ_skips_LANG (code cs : List Char) :
    replaceChars ("{PROJ}" : String).data code (("{LANG}" : String).data ++ cs) =
      ("{LANG}" : String).data ++ replaceChars ("{PROJ}" : String).data code cs := by
  rw [chunk_tokLANG, chunk_tokPROJ]
  rw [show (['\x7b', 'L', 'A', 'N', 'G', '\x7d'] ++ cs) =
    '\x7b' :: (['L', 'A', 'N', 'G', '\x7d'] ++ cs) from rfl]
  rw [replaceChars, dif_neg]
  · rw [replaceChars_skip_block '\x7b' _ code ['L', 'A', 'N', 'G', '\x7d'] cs
      (by decide)]
    rfl
  · rintro ⟨_, hpre⟩
    simp [List.isPrefixOf] at hpre

theorem chunkOk_no_braceL {cs : List Char} (h : chunkOk (Chunk.plain cs) = true) :
    '\x7b' ∉ cs := by
  simp [chunkOk] at h
  exact h.1

theorem replace_LANG_chunks (code : List Char)
    (hcode : '\x7b' ∉ code ∧ '\x7d' ∉ code) :
    ∀ bs : List Chunk, (∀ b ∈ bs, chunkOk b = true) →
      replaceChars ("{LANG}" : String).data code (chunksChars bs) =
        chunksChars (bs.map (substLang code))
| [], _ => by simp [chunksChars, replaceChars_nil]
| b :: bs', hok => by
  have hok' : ∀ x ∈ bs', chunkOk x = true := fun x hx =>
    hok x (List.mem_cons_of_mem b hx)
  have ih := replace_LANG_chunks code hcode bs' hok'
  cases b with
  | plain cs =>
    have hfree : '\x7b' ∉ cs := chunkOk_no_braceL (hok _ (List.mem_cons_self _ _))
    show replaceChars _ _ (cs ++ chunksChars bs') = cs ++ chunksChars (bs'.map _)
    rw [show ("{LANG}" : String).data = '\x7b' :: ['L', 'A', 'N', 'G', '\x7d']
      from rfl] at ih ⊢
    rw [replaceChars_skip_block _ _ _ _ _ hfree, ih]
  | lang =>
    show replaceChars _ _ (("{LANG}" : String).data ++ chunksChars bs') =
      code ++ chunksChars (bs'.map _)
    rw [replaceChars_hit _ _ _ (by decide), ih]
  | proj =>
    show replaceChars _ _ (("{PROJ}" : String).data ++ chunksChars bs') =
      ("{PROJ}" : String).data ++ chunksChars (bs'.map _)
    rw [replace_LANG_skips_PROJ, ih]

theorem replace_PROJ_chunks (code : List Char)
    (hcode : '\x7b' ∉ code ∧ '\x7d' ∉ code) :
    ∀ bs : List Chunk, (∀ b ∈ bs, chunkOk b = true) →
      replaceChars ("{PROJ}" : String).data code (chunksChars bs) =
        chunksChars (bs.map (substProj code))
| [], _ => by simp [chunksChars, replaceChars_nil]
| b :: bs', hok => by
  have hok' : ∀ x ∈ bs', chunkOk x = true := fun x hx =>
    hok x (List.mem_cons_of_mem b hx)
  have ih := replace_PROJ_chunks code hcode bs' hok'
  cases b with
  | plain cs =>
    have hfree : '\x7b' ∉ cs := chunkOk_no_braceL (hok _ (List.mem_cons_self _ _))
    show replaceChars _ _ (cs ++ chunksChars bs') = cs ++ chunksChars (bs'.map _)
    rw [show ("{PROJ}" : String).data = '\x7b' :: ['P', 'R', 'O', 'J', '\x7d']
      from rfl] at ih ⊢
    rw [replaceChars_skip_block _ _ _ _ _ hfree, ih]
  | lang =>
    show replaceChars _ _ (("{LANG}" : String).data ++ chunksChars bs') =
      ("{LANG}" : String).data ++ chunksChars (bs'.map _)
    rw [replace_PROJ_skips_LANG, ih]
  | proj =>
    show replaceChars _ _ (("{PROJ}" : String).data ++ chunksChars bs') =
      code ++ chunksChars (bs'.map _)
    rw [replaceChars_hit _ _ _ (by decide), ih]


theorem foldl_append_map (f : String → String) :
    ∀ (l acc : List String), l.foldl (fun a x => a ++ [f x]) acc = acc ++ l.map f
| [], acc => by simp
| x :: t, acc => by
  simp only [List.foldl_cons, List.map_cons]
  rw [foldl_append_map f t (acc ++ [f x])]
  simp

theorem sum_map_const_nat (k : Nat) :
    ∀ l : List String, (l.map (fun _ => k)).sum = l.length * k
| [] => by simp
| x :: t => by
  simp only [List.map_cons, List.sum_cons, List.length_cons,
    sum_map_const_nat k t]
  ring

theorem map_length_comp (g : String → String → String) (projs : List String) :
    ∀ langs : List String,
      langs.map (List.length ∘ fun lang => projs.map (g lang)) =
        List.replicate langs.length projs.length
| [] => rfl
| l :: ls => by
  simp only [List.map_cons, List.length_cons, List.replicate_succ,
    Function.comp_apply, List.length_map]
  rw [map_length_comp g projs ls]

theorem foldl_expand (g : String → String → String) :
    ∀ (langs projs acc : List String),
      langs.foldl
        (fun a lang => projs.foldl (fun a2 proj => a2 ++ [g lang proj]) a) acc =
      acc ++ langs.flatMap (fun lang => projs.map (g lang))
| [], _, acc => by simp
| l :: ls, projs, acc => by
  simp only [List.foldl_cons, List.flatMap_cons]
  rw [foldl_append_map (g l) projs acc, foldl_expand g ls projs _]
  simp

theorem occursIn_braceL_false (pat' : List Char) :
    ∀ l, '\x7b' ∉ l → occursIn ('\x7b' :: pat') l = false
| [], _ => by simp [occursIn]
| c :: cs, h => by
  have hc : '\x7b' ≠ c := fun hh => h (hh ▸ List.mem_cons_self c cs)
  have h' : '\x7b' ∉ cs := fun hh => h (List.mem_cons_of_mem c hh)
  rw [occursIn]
  simp [List.isPrefixOf, hc, occursIn_braceL_false pat' cs h']

theorem no_token_of_no_braceL (r : String) (h : '\x7b' ∉ r.data) :
    containsSub r "{LANG}" = false ∧ containsSub r "{PROJ}" = false := by
  unfold containsSub
  rw [chunk_tokLANG, chunk_tokPROJ]
  exact ⟨occursIn_braceL_false _ _ h, occursIn_braceL_false _ _ h⟩

theorem chunksChars_no_braceL (bs : List Chunk)
    (h : ∀ b ∈ bs, ∃ cs, b = Chunk.plain cs ∧ '\x7b' ∉ cs) :
    '\x7b' ∉ chunksChars bs := by
  intro hmem
  rcases List.mem_flatMap.mp hmem with ⟨b, hb, hc⟩
  rcases h b hb with ⟨cs, rfl, hfree⟩
  exact hfree hc

theorem braceFree_spec {s : String} (h : braceFree s = true) :
    '\x7b' ∉ s.data ∧ '\x7d' ∉ s.data := by
  simp [braceFree] at h
  exact h

theorem substLang_ok (lcode : List Char)
    (hc : chunkOk (Chunk.plain lcode) = true) (bs : List Chunk)
    (hok : ∀ b ∈ bs, chunkOk b = true) :
    ∀ b ∈ bs.map (substLang lcode), chunkOk b = true := by
  intro b hb
  rcases List.mem_map.mp hb with ⟨b0, hb0, rfl⟩
  cases b0 with
  | plain cs => exact hok _ hb0
  | lang => exact hc
  | proj => rfl

theorem subst_all_plain (lcode pcode : List Char)
    (hl : '\x7b' ∉ lcode) (hp : '\x7b' ∉ pcode) (bs : List Chunk)
    (hok : ∀ b ∈ bs, chunkOk b = true) :
    ∀ b ∈ (bs.map (substLang lcode)).map (substProj pcode),
      ∃ cs, b = Chunk.plain cs ∧ '\x7b' ∉ cs := by
  intro b hb
  rcases List.mem_map.mp hb with ⟨b1, hb1, rfl⟩
  rcases List.mem_map.mp hb1 with ⟨b0, hb0, rfl⟩
  have hok0 := hok b0 hb0
  cases b0 with
  | plain cs => exact ⟨cs, rfl, chunkOk_no_braceL hok0⟩
  | lang => exact ⟨lcode, rfl, hl⟩
  | proj => exact ⟨pcode, rfl, hp⟩

theorem expanded_no_tokens (loc lang proj : String) (bs : List Chunk)
    (hdec : loc.data = chunksChars bs) (hok : ∀ b ∈ bs, chunkOk b = true)
    (hl : braceFree lang = true) (hp : braceFree proj = true) :
    containsSub (strReplace (strReplace loc "{LANG}" lang) "{PROJ}" proj)
        "{LANG}" = false ∧
    containsSub (strReplace (strReplace loc "{LANG}" lang) "{PROJ}" proj)
        "{PROJ}" = false := by
  have hl' := braceFree_spec hl
  have hp' := braceFree_spec hp
  have hlok : chunkOk (Chunk.plain lang.data) = true := by
    simp [chunkOk]
    exact hl'
  have h1 : strReplace loc "{LANG}" lang =
      String.mk (chunksChars (bs.map (substLang lang.data))) := by
    unfold strReplace
    rw [hdec, replace_LANG_chunks lang.data hl' bs hok]
  have hok1 : ∀ b ∈ bs.map (substLang lang.data), chunkOk b = true :=
    substLang_ok lang.data hlok bs hok
  have h2 : strReplace (strReplace loc "{LANG}" lang) "{PROJ}" proj =
      String.mk (chunksChars
        ((bs.map (substLang lang.data)).map (substProj proj.data))) := by
    rw [h1]
    show String.mk (replaceChars ("{PROJ}" : String).data proj.data
      (chunksChars (bs.map (substLang lang.data)))) = _
    rw [replace_PROJ_chunks proj.data hp' _ hok1]
  rw [h2]
  exact no_token_of_no_braceL _ (chunksChars_no_braceL _
    (subst_all_plain lang.data proj.data hl'.1 hp'.1 bs hok))

/-! ### Claim C6 -/

/-- C6: `get_all_pootle_paths` expands the location's placeholders —
both present: the language×project cross product, languages as the
outer loop, `langs.length * projs.length` results; one placeholder:
substitution across that collection only; none: the literal location.
When both placeholders are present, the location decomposes into
brace-free pieces and placeholder tokens, and the codes are brace-free,
every produced location is the literal substitution with no `{LANG}`
or `{PROJ}` token remaining. -/
theorem C6_get_all_pootle_paths (langs projs : List String)
    (vf : VirtualFolder) :
    (containsSub vf.location "{LANG}" = true →
      containsSub vf.location "{PROJ}" = true →
      get_all_pootle_paths langs projs vf =
        langs.flatMap (fun lang => projs.map (fun proj =>
          strReplace (strReplace vf.location "{LANG}" lang) "{PROJ}" proj)) ∧
      (get_all_pootle_paths langs projs vf).length =
        langs.length * projs.length) ∧
    (containsSub vf.location "{LANG}" = true →
      containsSub vf.location "{PROJ}" = false →
      get_all_pootle_paths langs projs vf =
        langs.map (fun lang => strReplace vf.location "{LANG}" lang)) ∧
    (containsSub vf.location "{LANG}" = false →
      containsSub vf.location "{PROJ}" = true →
      get_all_pootle_paths langs projs vf =
        projs.map (fun proj => strReplace vf.location "{PROJ}" proj)) ∧
    (containsSub vf.location "{LANG}" = false →
      containsSub vf.location "{PROJ}" = false →
      get_all_pootle_paths langs projs vf = [vf.location]) ∧
    (containsSub vf.location "{LANG}" = true →
      containsSub vf.location "{PROJ}" = true →
      ∀ bs : List Chunk, vf.location.data = chunksChars bs →
        (∀ b ∈ bs, chunkOk b = true) →
        (∀ lang ∈ langs, braceFree lang = true) →
        (∀ proj ∈ projs, braceFree proj = true) →
        ∀ r ∈ get_all_pootle_paths langs projs vf,
          containsSub r "{LANG}" = false ∧ containsSub r "{PROJ}" = false) := by
  have hexp : containsSub vf.location "{LANG}" = true →
      containsSub vf.location "{PROJ}" = true →
      get_all_pootle_paths langs projs vf =
        langs.flatMap (fun lang => projs.map (fun proj =>
          strReplace (strReplace vf.location "{LANG}" lang) "{PROJ}" proj)) := by
    intro h1 h2
    simp only [get_all_pootle_paths, h1, h2, and_self, if_true]
    rw [foldl_expand
      (fun lang proj =>
        strReplace (strReplace vf.location "{LANG}" lang) "{PROJ}" proj)
      langs projs []]
    simp
  refine ⟨?_, ?_, ?_, ?_, ?_⟩
  · intro h1 h2
    refine ⟨hexp h1 h2, ?_⟩
    rw [hexp h1 h2, List.length_flatMap]
    rw [map_length_comp
      (fun lang proj =>
        strReplace (strReplace vf.location "{LANG}" lang) "{PROJ}" proj)
      projs langs, List.sum_replicate, smul_eq_mul]
  · intro h1 h2
    simp [get_all_pootle_paths, h1, h2]
  · intro h1 h2
    simp [get_all_pootle_paths, h1, h2]
  · intro h1 h2
    simp [get_all_pootle_paths, h1, h2]
  · intro h1 h2 bs hdec hok hlangs hprojs r hr
    rw [hexp h1 h2] at hr
    rcases List.mem_flatMap.mp hr with ⟨lang, hlang, hr2⟩
    rcases List.mem_map.mp hr2 with ⟨proj, hproj, rfl⟩
    exact expanded_no_tokens vf.location lang proj bs hdec hok
      (hlangs lang hlang) (hprojs proj hproj)



/-- Witness for C6: both placeholders present over 2 languages and one
project; the cross product has 2×1 locations and no tokens remain. -/
theorem C6_get_all_pootle_paths_witness :
    (get_all_pootle_paths ["en", "fr"] ["p1"] exPlaceholderVf).length =
      (["en", "fr"] : List String).length * (["p1"] : List String).length ∧
    ∀ r ∈ get_all_pootle_paths ["en", "fr"] ["p1"] exPlaceholderVf,
      containsSub r "{LANG}" = false ∧ containsSub r "{PROJ}" = false := by
  refine ⟨((C6_get_all_pootle_paths ["en", "fr"] ["p1"] exPlaceholderVf).1
    (by decide) (by decide)).2, ?_⟩
  exact (C6_get_all_pootle_paths ["en", "fr"] ["p1"]
      exPlaceholderVf).2.2.2.2 (by decide) (by decide) exChunks (by decide)
    (by decide) (by decide) (by decide)


end Pootle

namespace Pootle

theorem vfKeyMatches_iff (n l : String) (vf : VirtualFolder) :
    vfKeyMatches n l vf = true ↔ vf.name = n ∧ vf.location = l := by
  simp [vfKeyMatches]

theorem find?_cons_eq (p : VirtualFolder → Bool) (a : VirtualFolder)
    (l : List VirtualFolder) :
    List.find? p (a :: l) = if p a then some a else List.find? p l := by
  cases h : p a <;> simp [List.find?, h]

theorem applyUpdates_of_synced (vf : VirtualFolder) (rules : String)
    (it : VfItem) (h1 : vf.filter_rules = rules)
    (h2 : ∀ p, it.priority = some p → vf.priority = p)
    (h3 : ∀ b, it.is_browsable = some b → vf.is_browsable = b)
    (h4 : ∀ d, it.description = some d → vf.description = d) :
    applyUpdates vf rules it = (vf, false) := by
  unfold applyUpdates
  rcases hp : it.priority with _ | p <;>
    rcases hb : it.is_browsable with _ | b <;>
    rcases hd : it.description with _ | d <;>
    simp_all

theorem dbFind_append_none (db : List VirtualFolder) (n l : String)
    (vf : VirtualFolder) (h : dbFind db n l = none) :
    dbFind (db ++ [vf]) n l =
      if vfKeyMatches n l vf then some vf else none := by
  unfold dbFind at *
  rw [List.find?_append, h, find?_cons_eq]
  cases hv : vfKeyMatches n l vf <;> simp [hv]

theorem dbFind_append_some (db : List VirtualFolder) (n l : String)
    (vf vf0 : VirtualFolder) (h : dbFind db n l = some vf0) :
    dbFind (db ++ [vf]) n l = some vf0 := by
  unfold dbFind at *
  rw [List.find?_append, h]
  rfl

theorem dbReplace_cons (f : VirtualFolder) (fs : List VirtualFolder)
    (n l : String) (vf' : VirtualFolder) :
    dbReplace (f :: fs) n l vf' =
      (if vfKeyMatches n l f then vf' else f) :: dbReplace fs n l vf' := rfl

theorem dbFind_dbReplace_same (db : List VirtualFolder) (n l : String)
    (vf' : VirtualFolder) (hn : vf'.name = n) (hl : vf'.location = l) :
    dbFind (dbReplace db n l vf') n l =
      (dbFind db n l).map (fun _ => vf') := by
  have hv' : vfKeyMatches n l vf' = true := (vfKeyMatches_iff n l vf').mpr ⟨hn, hl⟩
  induction db with
  | nil => rfl
  | cons f fs ih =>
    rw [dbReplace_cons]
    by_cases hf : vfKeyMatches n l f = true
    · rw [if_pos hf]
      unfold dbFind
      rw [find?_cons_eq, if_pos hv', find?_cons_eq, if_pos hf]
      rfl
    · rw [if_neg hf]
      have hf' : vfKeyMatches n l f = false := by
        simpa using hf
      unfold dbFind
      rw [find?_cons_eq, find?_cons_eq, hf']
      simp only [Bool.false_eq_true, if_false]
      exact ih

theorem dbFind_dbReplace_other (db : List VirtualFolder) (n l n' l' : String)
    (vf' : VirtualFolder) (hkey : (n, l) ≠ (n', l'))
    (hn : vf'.name = n') (hl : vf'.location = l') :
    dbFind (dbReplace db n' l' vf') n l = dbFind db n l := by
  have hnotvf' : vfKeyMatches n l vf' = false := by
    rcases hv : vfKeyMatches n l vf' with _ | _
    · rfl
    · rcases (vfKeyMatches_iff n l vf').mp hv with ⟨h1, h2⟩
      exact absurd (by rw [← h1, ← h2, hn, hl]) hkey
  induction db with
  | nil => rfl
  | cons f fs ih =>
    rw [dbReplace_cons]
    by_cases hf : vfKeyMatches n' l' f = true
    · have hfn := (vfKeyMatches_iff n' l' f).mp hf
      have hnotf : vfKeyMatches n l f = false := by
        rcases hv : vfKeyMatches n l f with _ | _
        · rfl
        · rcases (vfKeyMatches_iff n l f).mp hv with ⟨h1, h2⟩
          exact absurd (by rw [← h1, ← h2, hfn.1, hfn.2]) hkey
      rw [if_pos hf]
      unfold dbFind
      rw [find?_cons_eq, hnotvf', find?_cons_eq, hnotf]
      simp only [Bool.false_eq_true, if_false]
      exact ih
    · rw [if_neg hf]
      unfold dbFind
      rw [find?_cons_eq, find?_cons_eq]
      cases hm : vfKeyMatches n l f
      · simp only [Bool.false_eq_true, if_false]
        exact ih
      · rfl


theorem applyUpdates_eq (vf : VirtualFolder) (rules : String) (it : VfItem) :
    applyUpdates vf rules it =
      ({ vf with
          filter_rules := rules,
          priority := it.priority.getD vf.priority,
          is_browsable := it.is_browsable.getD vf.is_browsable,
          description := it.description.getD vf.description },
        (decide (vf.filter_rules ≠ rules) ||
          it.priority.any (fun p => decide (vf.priority ≠ p)) ||
          it.is_browsable.any (fun b => decide (vf.is_browsable ≠ b)) ||
          it.description.any (fun d => decide (vf.description ≠ d)))) := by
  unfold applyUpdates
  rcases hp : it.priority with _ | p <;>
    rcases hb : it.is_browsable with _ | b <;>
    rcases hd : it.description with _ | d <;>
    by_cases c1 : vf.filter_rules = rules <;>
    simp only [c1, if_pos, if_neg, ne_eq, not_true_eq_false, not_false_eq_true,
      if_true, if_false, Option.any_some, Option.any_none, Option.getD_some,
      Option.getD_none, decide_not, ite_true, ite_false] <;>
    (try split_ifs) <;>
    (try simp_all) <;>
    (try rfl) <;>
    (try (cases vf <;> simp_all))

theorem applyUpdates_changed_false (vf : VirtualFolder) (rules : String)
    (it : VfItem) (h : (applyUpdates vf rules it).2 = false) :
    vf.filter_rules = rules ∧
    (∀ p, it.priority = some p → vf.priority = p) ∧
    (∀ b, it.is_browsable = some b → vf.is_browsable = b) ∧
    (∀ d, it.description = some d → vf.description = d) := by
  rw [applyUpdates_eq] at h
  rcases hp : it.priority with _ | p <;>
    rcases hb : it.is_browsable with _ | b <;>
    rcases hd : it.description with _ | d <;>
    simp_all

theorem find?_some_key {db : List VirtualFolder} {n l : String}
    {vf : VirtualFolder} (h : dbFind db n l = some vf) :
    vf.name = n ∧ vf.location = l :=
  (vfKeyMatches_iff n l vf).mp (List.find?_some h)

theorem processItem_of_synced (st : ImportState) (it : VfItem)
    (h : itemSynced st.db it) : processItem st it = st := by
  rcases h with ⟨vf, hfind, h1, h2, h3, h4⟩
  simp only [processItem]
  rw [hfind]
  simp [applyUpdates_of_synced vf (effectiveRules it) it h1 h2 h3 h4]

theorem processItem_synced_self (st : ImportState) (it : VfItem) :
    itemSynced (processItem st it).db it := by
  simp only [processItem]
  cases hfind : dbFind st.db (strToLower it.name) it.location with
  | none =>
    have hnew := dbFind_append_none st.db (strToLower it.name) it.location
      { name := (strToLower it.name), location := it.location,
        filter_rules := effectiveRules it, priority := it.priority.getD 1,
        is_browsable := it.is_browsable.getD false,
        description := it.description.getD "" } hfind
    have hcond : vfKeyMatches (strToLower it.name) it.location
        { name := (strToLower it.name), location := it.location,
          filter_rules := effectiveRules it, priority := it.priority.getD 1,
          is_browsable := it.is_browsable.getD false,
          description := it.description.getD "" } = true :=
      (vfKeyMatches_iff _ _ _).mpr ⟨rfl, rfl⟩
    simp only [hcond, if_true] at hnew
    exact ⟨_, hnew, rfl, fun p hp => by simp [hp], fun b hb => by simp [hb],
      fun d hd => by simp [hd]⟩
  | some vf =>
    have hkeys := find?_some_key hfind
    have hupd := applyUpdates_eq vf (effectiveRules it) it
    by_cases hch : (applyUpdates vf (effectiveRules it) it).2 = true
    · simp only [hch, if_true]
      have hname : (applyUpdates vf (effectiveRules it) it).1.name =
          (strToLower it.name) := by rw [hupd]; exact hkeys.1
      have hloc : (applyUpdates vf (effectiveRules it) it).1.location =
          it.location := by rw [hupd]; exact hkeys.2
      refine ⟨(applyUpdates vf (effectiveRules it) it).1, ?_, ?_, ?_, ?_, ?_⟩
      · show dbFind (dbReplace st.db (strToLower it.name) it.location _) _ _ = _
        rw [dbFind_dbReplace_same st.db _ _ _ hname hloc, hfind]
        rfl
      · rw [hupd]
      · intro p hp
        rw [hupd]
        simp [hp]
      · intro b hb
        rw [hupd]
        simp [hb]
      · intro d hd
        rw [hupd]
        simp [hd]
    · have hch' : (applyUpdates vf (effectiveRules it) it).2 = false := by
        simpa using hch
      rcases applyUpdates_changed_false vf _ it hch' with ⟨h1, h2, h3, h4⟩
      simp only [hch', Bool.false_eq_true, if_false]
      exact ⟨vf, hfind, h1, h2, h3, h4⟩

theorem synced_dbReplace_other (db : List VirtualFolder) (it : VfItem)
    (n' l' : String) (vf' : VirtualFolder)
    (hkey : ((strToLower it.name), it.location) ≠ (n', l'))
    (hn : vf'.name = n') (hl : vf'.location = l')
    (h : itemSynced db it) : itemSynced (dbReplace db n' l' vf') it := by
  rcases h with ⟨vf, hfind, hrest⟩
  exact ⟨vf,
    by rw [dbFind_dbReplace_other db _ _ n' l' vf' hkey hn hl]; exact hfind,
    hrest⟩

theorem processItem_preserves_synced (st : ImportState) (it' it : VfItem)
    (hkey : itemKey it ≠ itemKey it') (h : itemSynced st.db it) :
    itemSynced (processItem st it').db it := by
  simp only [processItem]
  cases hfind : dbFind st.db (strToLower it'.name) it'.location with
  | none =>
    rcases h with ⟨vf, hf, hrest⟩
    exact ⟨vf, dbFind_append_some st.db _ _ _ vf hf, hrest⟩
  | some vf0 =>
    have hk0 := find?_some_key hfind
    by_cases hch : (applyUpdates vf0 (effectiveRules it') it').2 = true
    · simp only [hch, if_true]
      have hupd := applyUpdates_eq vf0 (effectiveRules it') it'
      refine synced_dbReplace_other st.db it _ _ _ hkey ?_ ?_ h
      · rw [hupd]; exact hk0.1
      · rw [hupd]; exact hk0.2
    · have hch' : (applyUpdates vf0 (effectiveRules it') it').2 = false := by
        simpa using hch
      simp only [hch', Bool.false_eq_true, if_false]
      exact h

theorem foldl_preserves_synced (items : List VfItem) :
    ∀ (st : ImportState) (it : VfItem), itemSynced st.db it →
      (∀ x ∈ items, itemKey it ≠ itemKey x) →
      itemSynced (items.foldl processItem st).db it := by
  induction items with
  | nil => exact fun st it h _ => h
  | cons x xs ih =>
    intro st it h hne
    exact ih (processItem st x) it
      (processItem_preserves_synced st x it (hne x (List.mem_cons_self x xs)) h)
      (fun y hy => hne y (List.mem_cons_of_mem x hy))

theorem foldl_all_synced (items : List VfItem) :
    ∀ st : ImportState,
      items.Pairwise (fun a b => itemKey a ≠ itemKey b) →
      ∀ it ∈ items, itemSynced (items.foldl processItem st).db it := by
  induction items with
  | nil =>
    intro st _ it hit
    cases hit
  | cons x xs ih =>
    intro st hdist it hit
    rcases List.pairwise_cons.mp hdist with ⟨hx, hxs⟩
    rw [List.foldl_cons]
    rcases List.mem_cons.mp hit with rfl | hmem
    · exact foldl_preserves_synced xs (processItem st it) it
        (processItem_synced_self st it) (fun y hy => hx y hy)
    · exact ih (processItem st x) hxs it hmem

theorem foldl_synced_id (items : List VfItem) :
    ∀ st : ImportState, (∀ it ∈ items, itemSynced st.db it) →
      items.foldl processItem st = st := by
  induction items with
  | nil => exact fun st _ => rfl
  | cons x xs ih =>
    intro st h
    rw [List.foldl_cons,
      processItem_of_synced st x (h x (List.mem_cons_self x xs))]
    exact ih st (fun it hit => h it (List.mem_cons_of_mem x hit))

theorem runImport_all_synced (db : List VirtualFolder) (items : List VfItem)
    (hdist : items.Pairwise (fun a b => itemKey a ≠ itemKey b)) :
    ∀ it ∈ items, itemSynced (runImport db items).db it :=
  foldl_all_synced items { db := db, added := 0, updated := 0 } hdist


theorem processItem_added_of_found (st : ImportState) (it : VfItem)
    (h : ∃ vf, dbFind st.db (strToLower it.name) it.location = some vf) :
    (processItem st it).added = st.added := by
  rcases h with ⟨vf, hf⟩
  simp only [processItem]
  rw [hf]
  by_cases hch : (applyUpdates vf (effectiveRules it) it).2 = true <;>
    simp [hch]

theorem processItem_added_le (st : ImportState) (it : VfItem) :
    (processItem st it).added ≤ st.added + 1 := by
  simp only [processItem]
  cases hf : dbFind st.db (strToLower it.name) it.location with
  | none => simp
  | some vf =>
    by_cases hch : (applyUpdates vf (effectiveRules it) it).2 = true <;>
      simp [hch]

theorem mem_dbReplace (db : List VirtualFolder) (n l : String)
    (vf' vf : VirtualFolder) (h : vf ∈ dbReplace db n l vf') :
    vf ∈ db ∨ vf = vf' := by
  rcases List.mem_map.mp h with ⟨f, hf, rfl⟩
  by_cases hk : vfKeyMatches n l f = true
  · right
    simp [hk]
  · left
    simpa [hk] using hf

/-! ### Claim C7 -/

/-- C7 counterexample: an input file with two entries sharing the
`(lowercased name, location)` key but different priorities.  The second
run over the unchanged file reports 2 updates (each entry keeps
flipping the stored priority), not 0, so the claim fails as stated for
arbitrary valid input files. -/
theorem C7_counterexample :
    (runImport (runImport [] [dupItemA, dupItemB]).db
      [dupItemA, dupItemB]).added = 0 ∧
    (runImport (runImport [] [dupItemA, dupItemB]).db
      [dupItemA, dupItemB]).updated = 2 := by decide

/-- C7 (amended): for input files whose entries carry pairwise distinct
`(lowercased name, location)` keys, re-running the importer on the
unchanged input reports zero added and zero updated entries, every
entry being in sync with its stored record after the first run. -/
theorem C7_reimport_idempotent (db : List VirtualFolder)
    (items : List VfItem)
    (hdist : items.Pairwise (fun a b => itemKey a ≠ itemKey b)) :
    runImport (runImport db items).db items =
      { db := (runImport db items).db, added := 0, updated := 0 } ∧
    ∀ it ∈ items, itemSynced (runImport db items).db it := by
  have hs := runImport_all_synced db items hdist
  exact ⟨foldl_synced_id items _ hs, hs⟩

/-- Witness for C7 (amended) on a one-entry input file. -/
theorem C7_reimport_idempotent_witness :
    runImport (runImport [] [dupItemA]).db [dupItemA] =
      { db := (runImport [] [dupItemA]).db, added := 0, updated := 0 } :=
  (C7_reimport_idempotent [] [dupItemA] (by simp)).1

/-! ### Claim C8 -/

/-- C8: starting from the state produced by an import of `items`,
an import run whose input differs only in one entry's priority (present in
both, changed to a different value) reports 1 update and 0 additions,
and the affected record keeps its `filter_rules` and `description`,
only its priority moving to the new value. -/
theorem C8_priority_only_update (db0 : List VirtualFolder)
    (pre post : List VfItem) (itK : VfItem) (p p' : Int)
    (hdist : (pre ++ itK :: post).Pairwise (fun a b => itemKey a ≠ itemKey b))
    (hp : itK.priority = some p) (hne : p' ≠ p) :
    (runImport (runImport db0 (pre ++ itK :: post)).db
        (pre ++ { itK with priority := some p' } :: post)).added = 0 ∧
    (runImport (runImport db0 (pre ++ itK :: post)).db
        (pre ++ { itK with priority := some p' } :: post)).updated = 1 ∧
    ∃ vf vf',
      dbFind (runImport db0 (pre ++ itK :: post)).db (strToLower itK.name)
        itK.location = some vf ∧
      dbFind (runImport (runImport db0 (pre ++ itK :: post)).db
          (pre ++ { itK with priority := some p' } :: post)).db
        (strToLower itK.name) itK.location = some vf' ∧
      vf'.filter_rules = vf.filter_rules ∧
      vf'.description = vf.description ∧
      vf'.priority = p' := by
  have hsync := runImport_all_synced db0 (pre ++ itK :: post) hdist
  have hsyncK := hsync itK (by simp)
  rcases hsyncK with ⟨vf, hfind, hflt, hpri, hbro, hdes⟩
  have hvp : vf.priority = p := hpri p hp
  have hvfkey := find?_some_key hfind
  rcases List.pairwise_append.mp hdist with ⟨hpre, hpost0, hcross⟩
  have hpostK : ∀ y ∈ post, itemKey itK ≠ itemKey y :=
    (List.pairwise_cons.mp hpost0).1
  set db1 := (runImport db0 (pre ++ itK :: post)).db
  set itK' : VfItem := { itK with priority := some p' }
  have hkeyK : itemKey itK' = itemKey itK := rfl
  have hrules : effectiveRules itK' = effectiveRules itK := rfl
  have hr := applyUpdates_eq vf (effectiveRules itK') itK'
  have hvpne : vf.priority ≠ p' := by
    rw [hvp]
    exact fun h => hne h.symm
  have hch : (applyUpdates vf (effectiveRules itK') itK').2 = true := by
    rw [hr]
    simp [hrules, hflt, hvpne]
  have hstep2 :
      processItem { db := db1, added := 0, updated := 0 } itK' =
        { db := dbReplace db1 (strToLower itK.name) itK.location
            (applyUpdates vf (effectiveRules itK') itK').1
          added := 0, updated := 1 } := by
    simp only [processItem]
    show (match dbFind db1 (strToLower itK.name) itK.location with
      | none => _
      | some vf => _) = _
    rw [hfind]
    simp only [hch, if_true]
  have hr1name : (applyUpdates vf (effectiveRules itK') itK').1.name =
      (strToLower itK.name) := by rw [hr]; exact hvfkey.1
  have hr1loc : (applyUpdates vf (effectiveRules itK') itK').1.location =
      itK.location := by rw [hr]; exact hvfkey.2
  have hrun2 : runImport db1 (pre ++ itK' :: post) =
      { db := dbReplace db1 (strToLower itK.name) itK.location
          (applyUpdates vf (effectiveRules itK') itK').1
        added := 0, updated := 1 } := by
    show (pre ++ itK' :: post).foldl processItem
      { db := db1, added := 0, updated := 0 } = _
    rw [List.foldl_append,
      foldl_synced_id pre { db := db1, added := 0, updated := 0 }
        (fun x hx => hsync x (List.mem_append_left _ hx)),
      List.foldl_cons, hstep2]
    exact foldl_synced_id post _ (fun y hy =>
      synced_dbReplace_other db1 y (strToLower itK.name) itK.location _
        (Ne.symm (hpostK y hy)) hr1name hr1loc
        (hsync y (List.mem_append_right _ (List.mem_cons_of_mem itK hy))))
  refine ⟨by rw [hrun2], by rw [hrun2], vf,
    (applyUpdates vf (effectiveRules itK') itK').1, hfind, ?_, ?_, ?_, ?_⟩
  · rw [hrun2]
    show dbFind (dbReplace db1 (strToLower itK.name) itK.location _) _ _ = _
    rw [dbFind_dbReplace_same db1 _ _ _ hr1name hr1loc, hfind]
    rfl
  · rw [hr]
    show effectiveRules itK' = vf.filter_rules
    rw [hrules, hflt]
  · rw [hr]
    show itK.description.getD vf.description = vf.description
    rcases hd : itK.description with _ | d
    · rfl
    · exact (hdes d hd).symm
  · rw [hr]
    rfl




/-- Witness for C8: one stored entry whose priority moves from 1 to 2. -/
theorem C8_priority_only_update_witness :
    (runImport (runImport [] ([] ++ dupItemA :: [])).db
        ([] ++ { dupItemA with priority := some 2 } :: [])).added = 0 ∧
    (runImport (runImport [] ([] ++ dupItemA :: [])).db
        ([] ++ { dupItemA with priority := some 2 } :: [])).updated = 1 ∧
    ∃ vf vf',
      dbFind (runImport [] ([] ++ dupItemA :: [])).db
        (strToLower dupItemA.name) dupItemA.location = some vf ∧
      dbFind (runImport (runImport [] ([] ++ dupItemA :: [])).db
          ([] ++ { dupItemA with priority := some 2 } :: [])).db
        (strToLower dupItemA.name) dupItemA.location = some vf' ∧
      vf'.filter_rules = vf.filter_rules ∧
      vf'.description = vf.description ∧
      vf'.priority = 2 :=
  C8_priority_only_update [] [] [] dupItemA 1 2 (by simp) rfl (by decide)

/-! ### Claim C10 -/

/-- C10: the importer lowercases names before lookup and insertion: two
entries whose names agree up to case (and share a location) address the
same record — at most one insertion happens across the pair — and any
record a `processItem` step adds to the database carries the lowercased
name of its entry. -/
theorem C10_importer_lowercases (db : List VirtualFolder)
    (st : ImportState) (it it1 it2 : VfItem)
    (hname : strToLower it1.name = strToLower it2.name)
    (hloc : it1.location = it2.location) :
    (runImport db [it1, it2]).added ≤ 1 ∧
    (∀ vf ∈ (processItem st it).db, vf ∉ st.db →
      vf.name = strToLower it.name) := by
  constructor
  · show (processItem (processItem
      { db := db, added := 0, updated := 0 } it1) it2).added ≤ 1
    rcases processItem_synced_self
        { db := db, added := 0, updated := 0 } it1 with ⟨vf, hfind, _⟩
    have hfound2 : dbFind (processItem
        { db := db, added := 0, updated := 0 } it1).db
        (strToLower it2.name) it2.location = some vf := by
      rw [← hname, ← hloc]
      exact hfind
    rw [processItem_added_of_found _ it2 ⟨vf, hfound2⟩]
    have := processItem_added_le { db := db, added := 0, updated := 0 } it1
    simpa using this
  · intro vf hvf hnot
    revert hvf
    simp only [processItem]
    cases hfind : dbFind st.db (strToLower it.name) it.location with
    | none =>
      intro hvf
      rcases List.mem_append.mp hvf with h | h
      · exact absurd h hnot
      · rcases List.mem_singleton.mp h with rfl
        rfl
    | some vf0 =>
      have hk0 := find?_some_key hfind
      by_cases hch : (applyUpdates vf0 (effectiveRules it) it).2 = true
      · simp only [hch, if_true]
        intro hvf
        rcases mem_dbReplace st.db _ _ _ vf hvf with h | rfl
        · exact absurd h hnot
        · rw [applyUpdates_eq]
          exact hk0.1
      · have hch' : (applyUpdates vf0 (effectiveRules it) it).2 = false := by
          simpa using hch
        simp only [hch', Bool.false_eq_true, if_false]
        intro hvf
        exact absurd hvf hnot

/-- Witness for C10 on two casings of the same name. -/
theorem C10_importer_lowercases_witness :
    (runImport [] [upperItemA, upperItemB]).added ≤ 1 ∧
    (∀ vf ∈ (processItem { db := [], added := 0, updated := 0 }
        upperItemA).db,
      vf ∉ ([] : List VirtualFolder) → vf.name = strToLower upperItemA.name) :=
  C10_importer_lowercases [] { db := [], added := 0, updated := 0 }
    upperItemA upperItemA upperItemB (by decide) rfl

/-! ### Claim C9 -/

/-- C9 (code bug): when the input file cannot be opened, the command
raises the intended user-facing `CommandError` carrying the OS error
description and processes nothing; but when the file's contents are not
valid JSON, the `except` block evaluates `e.strerror` on a `ValueError`,
which has no such attribute, so the run dies with an uncaught
`AttributeError` instead of the claimed user-facing command error
(still processing no entry). -/
theorem C9_file_errors (db : List VirtualFolder) :
    handleCommand db LoadResult.badJson =
      CommandOutcome.pythonError
        "AttributeError: ValueError instance has no attribute strerror" ∧
    ∀ s, handleCommand db (LoadResult.ioError s) =
      CommandOutcome.commandError
        ("Some error occurred while handling the file: " ++ s) :=
  ⟨rfl, fun _ => rfl⟩

end Pootle
